import Mathlib

/-!
Verification of the tstoolbox time-series toolbox against its design
specification.  The development shallowly embeds the I/O layer of
src/tsutils/__init__.py (the ISO emitter printiso and the reader
read_iso_ts), the gap-filling routine of src/tstoolbox/functions/fill.py,
the column-count check of src/tstoolbox/functions/gof.py, and the
rolling-window and peak-detection routines (whose implementations are not
under src/, so they are modelled from the specification, as noted on the
corresponding definitions).

Modelling conventions:
* Timestamps are natural numbers rendered in decimal; this abstracts the
  ISO-8601 timestamp text together with the external dateutil parser,
  which tolerates surrounding whitespace, into a printable and parsable
  totally ordered time point.
* Values are rationals; missing values (NaN) are the sentinel none of
  Option.  The external Python float type is modelled by rationals whose
  reduced denominator divides a power of ten, which the emitter can print
  exactly as plain decimal text, matching the exact short repr printed by
  str(float) and re-read by float(str).
* A text line is modelled as the list of its comma-separated fields, with
  the whitespace that the Python print statements insert around each
  separator kept inside the fields, because the reader splits each line on
  commas and the surrounding code never emits a comma inside a field.
-/

namespace TST

/-! ### Characters, digits and whitespace -/

def isSpaceChar (c : Char) : Bool :=
  c = ' ' || c = '\t' || c = '\n' || c = '\r'

def isDigitChar (c : Char) : Bool :=
  '0' ≤ c && c ≤ '9'

def digitChar (d : Nat) : Char :=
  match d with
  | 0 => '0' | 1 => '1' | 2 => '2' | 3 => '3' | 4 => '4'
  | 5 => '5' | 6 => '6' | 7 => '7' | 8 => '8' | _ => '9'

def digitVal (c : Char) : Nat := c.toNat - 48

/-- Little-endian base-ten digits by structural recursion on a fuel
bound, so that evaluation reduces inside the kernel. -/
def digitsRev (fuel n : Nat) : List Nat :=
  match fuel with
  | 0 => []
  | fuel + 1 => if n = 0 then [] else n % 10 :: digitsRev fuel (n / 10)

def natDigits (n : Nat) : List Nat := digitsRev n n

/-- Decimal digit list of a natural number, most significant digit
first, as produced by the Python str builtin on nonnegative ints. -/
def natChars (n : Nat) : List Char :=
  if n = 0 then ['0'] else ((natDigits n).map digitChar).reverse

/-- Value of a most-significant-first decimal digit string. -/
def valDigits (l : List Char) : Nat :=
  l.foldl (fun a c => 10 * a + digitVal c) 0

def natToStr (n : Nat) : String := String.mk (natChars n)

/-! ### Python str.strip -/

/-- Removes leading and trailing whitespace, modelling the Python strip
method and the whitespace tolerance of float() and dateutil.parse. -/
def stripChars (l : List Char) : List Char :=
  ((l.dropWhile isSpaceChar).reverse.dropWhile isSpaceChar).reverse

def pyStrip (s : String) : String := String.mk (stripChars s.data)

/-! ### The Python float type: printing and parsing

The reader recovers a value with the float builtin, catching ValueError
and recording NaN (read_iso_ts, src/tsutils/init, lines 102 to 106); the
emitter prints str(value) or a blank for NaN (printiso and isfinite,
lines 9 to 43).  Python floats print exactly in plain decimal notation
and re-read exactly; this pair models that contract on the rationals
whose reduced denominator divides a power of ten.  Exponent notation and
the special names accepted by float() are not modelled; the emitter never
produces them and no claim depends on them. -/

/-- Parse an unsigned plain decimal numeral, as the float builtin does
after sign handling: digits, an optional point, fraction digits, nothing
else, and at least one digit overall. -/
def parseUFloat (l : List Char) : Option ℚ :=
  let ds := l.takeWhile isDigitChar
  match l.dropWhile isDigitChar with
  | [] => if ds.isEmpty then none else some ((valDigits ds : ℚ))
  | '.' :: r2 =>
      let fs := r2.takeWhile isDigitChar
      if (r2.dropWhile isDigitChar).isEmpty && !(ds.isEmpty && fs.isEmpty) then
        some ((valDigits ds : ℚ) + (valDigits fs : ℚ) / (10 : ℚ) ^ fs.length)
      else none
  | _ => none

def parseFloatChars (l : List Char) : Option ℚ :=
  match l with
  | [] => none
  | c :: r =>
    if c = '-' then (parseUFloat r).map (fun q => -q)
    else if c = '+' then parseUFloat r
    else parseUFloat (c :: r)

/-- Model of the Python float builtin: strip surrounding whitespace, then
parse an optionally signed plain decimal numeral; none models ValueError. -/
def parseFloat (s : String) : Option ℚ :=
  parseFloatChars (stripChars s.data)

/-- Smallest exponent e below the search bound with q.den dividing 10^e;
it exists exactly when the reduced denominator has only the prime factors
2 and 5, that is when q is the exact value of a decimal numeral. -/
def decExp (q : ℚ) : Option Nat :=
  (List.range (q.den + 1)).find? (fun e => 10 ^ e % q.den = 0)

def isDecimalRat (q : ℚ) : Bool := (decExp q).isSome

/-- Fraction digits: the remainder pre-padded with zeros to e digits. -/
def fracCharsOf (e f : Nat) : List Char :=
  List.replicate (e - (natChars f).length) '0' ++ natChars f

/-- Unsigned decimal text of m / 10^e in the style of str(float): always
at least one digit on each side of the point. -/
def uFloatChars (m e : Nat) : List Char :=
  if e = 0 then natChars m ++ '.' :: ['0']
  else natChars (m / 10 ^ e) ++ '.' :: fracCharsOf e (m % 10 ^ e)

/-- Decimal text of a rational with decimal denominator, models str on a
Python float; on the (never emitted) non-decimal rationals it falls back
to a fixed numeral. -/
def floatChars (q : ℚ) : List Char :=
  match decExp q with
  | none => '0' :: '.' :: ['0']
  | some e =>
      if q.num < 0 then
        '-' :: uFloatChars (q.num.natAbs * (10 ^ e / q.den)) e
      else uFloatChars (q.num.natAbs * (10 ^ e / q.den)) e

def floatToStr (q : ℚ) : String := String.mk (floatChars q)

/-! ### The time-series table and the ISO reader and emitter

Source: src/tsutils/init.  A table is the pandas DataFrame built by
read_iso_ts: an index of timestamps, column names, and one value list per
column.  The reader collects one list per column name in a dict while
walking the rows and then joins the single-column frames over the shared
date list, one DataFrame.join per further column; the join matches rows
by index label, so a date occurring k times in the shared list replicates
each row carrying that label k times on every join.  The join is modelled
below with the merge semantics, left rows in order, each matched against
every right row of equal label in order; every theorem about the reader
restricts itself to inputs with pairwise distinct dates, where every
label matches exactly once and every pandas version agrees.  Duplicate
column names make the original crash while building the Series (list
length 2n against n dates); that failure is modelled by the dupError
case. -/

structure Table where
  index : List Nat
  names : List String
  cols : List (List (Option ℚ))
deriving DecidableEq

/-- Well-formedness from the data model of the specification: one value
list per column, all sharing the index, and strictly increasing
timestamps. -/
def TableWF (t : Table) : Prop :=
  t.cols.length = t.names.length ∧
  (∀ c ∈ t.cols, c.length = t.index.length) ∧
  List.Pairwise (· < ·) t.index

instance (t : Table) : Decidable (TableWF t) := by
  unfold TableWF
  infer_instance

/-- Model of dateutil.parser.parse on the abstracted timestamp text:
surrounding whitespace is tolerated, anything else than a numeral fails
(none models the exception escaping read_iso_ts). -/
def pyParseDate (s : String) : Option Nat :=
  match stripChars s.data with
  | [] => none
  | c :: r =>
    if (c :: r).all isDigitChar then some (valDigits (c :: r)) else none

inductive ReadErr
  | formatError
  | dateError
  | emptyError
  | dupError
  | nameError
deriving DecidableEq

/-- One pass of the reading loop of read_iso_ts over one data line: the
field count is checked against the header first, then the date field is
parsed (a failure there escapes), and every remaining field becomes a
float or, when float() fails, the missing sentinel. -/
def parseLine (ncols : Nat) (l : List String) : Except ReadErr (Nat × List (Option ℚ)) :=
  if l.length ≠ ncols then .error .formatError
  else
    match pyParseDate (l.headD "") with
    | none => .error .dateError
    | some d => .ok (d, (l.drop 1).map parseFloat)

/-- Error-propagating map, the reading loop with its first raise winning. -/
def mapE (f : α → Except ε β) : List α → Except ε (List β)
  | [] => .ok []
  | a :: l =>
    match f a with
    | .error e => .error e
    | .ok b =>
      match mapE f l with
      | .error e => .error e
      | .ok bs => .ok (b :: bs)

def listNodup (l : List String) : Bool :=
  match l with
  | [] => true
  | a :: r => !(r.contains a) && listNodup r

/-- Positions of one label in the shared date list, in order: the match
set of a left join key against the single-column frame built over
dates. -/
def matchIdx (dates : List Nat) (d : Nat) : List Nat :=
  (List.range dates.length).filter (fun j => dates.getD j 0 = d)

/-- Join multiplicity of one left label: every matching right position
in order, or a single missing marker when nothing matches, the left row
being kept with a missing value by a left join. -/
def joinPos (dates : List Nat) (d : Nat) : List (Option Nat) :=
  if (matchIdx dates d).isEmpty then [none]
  else (matchIdx dates d).map some

/-- One DataFrame.join of the frame built so far with the next
single-column frame over the shared date list: each left row in order is
matched against every right row carrying the same date in order, so a
date with k occurrences replicates the row k times; existing cells are
copied along, the joined column takes the matched right values. -/
def joinCol (dates idx : List Nat) (cols : List (List (Option ℚ)))
    (vals : List (Option ℚ)) : List Nat × List (List (Option ℚ)) :=
  (idx.flatMap (fun d => (joinPos dates d).map (fun _ => d)),
   cols.map (fun c => (idx.zip c).flatMap
       (fun p => (joinPos dates p.1).map (fun _ => p.2)))
     ++ [idx.flatMap (fun d => (joinPos dates d).map
       (fun jq => jq.bind (fun j => vals.getD j none)))])

/-- The column loop of read_iso_ts: the first single-column frame seeds
the result, each further column is joined on the date index. -/
def joinAll (dates : List Nat) :
    List (List (Option ℚ)) → List Nat × List (List (Option ℚ))
  | [] => (dates, [])
  | v :: vs => vs.foldl (fun st v2 => joinCol dates st.1 st.2 v2) (dates, [v])

/-- Assembly step of read_iso_ts after the reading loop: fail on zero
data rows, fail on duplicate column names (the Series construction of
the original crashes there), fail when the header names no value column
(the loop then never binds result and the return raises NameError), else
join the per-name single-column frames over the shared date index. -/
def buildTable (hdr : List String) (rows : List (Nat × List (Option ℚ))) :
    Except ReadErr Table :=
  if rows.isEmpty then .error .emptyError
  else if !listNodup (hdr.drop 1) then .error .dupError
  else if hdr.length < 2 then .error .nameError
  else
    .ok ⟨(joinAll (rows.map (fun r => r.1))
        ((List.range (hdr.length - 1)).map
          (fun j => rows.map (fun r => r.2.getD j none)))).1,
      hdr.drop 1,
      (joinAll (rows.map (fun r => r.1))
        ((List.range (hdr.length - 1)).map
          (fun j => rows.map (fun r => r.2.getD j none)))).2⟩

/-- Propagation of a reading-loop failure past the assembly step. -/
def withRows (hdr : List String) :
    Except ReadErr (List (Nat × List (Option ℚ))) → Except ReadErr Table
  | .error e => .error e
  | .ok rows => buildTable hdr rows

/-- Model of read_iso_ts (src/tsutils/init, lines 64 to 133) at the level
of comma-split lines: strip the header fields, walk the data lines
checking field counts and parsing dates and values, fail on zero data
rows, and assemble one column per non-date header name. -/
def read_iso_ts (lines : List (List String)) : Except ReadErr Table :=
  match lines with
  | [] => .error .emptyError
  | header :: dataLines =>
    withRows (header.map pyStrip)
      (mapE (parseLine ((header.map pyStrip).length)) dataLines)

/-- The isfinite helper of printiso: the text of a finite value, a blank
for the missing sentinel. -/
def isfiniteStr (v : Option ℚ) : String :=
  match v with
  | some q => floatToStr q
  | none => " "

/-- Fields of the emitted header line.  The printed text is the string
Datetime followed by a comma, then the column names joined by comma plus
space, with the print separator space in front; splitting that text on
commas leaves a leading space inside every name field, kept here. -/
def emitHeader (names : List String) : List String :=
  "Datetime" :: match names with
  | [] => [" "]
  | c :: cs => (" " ++ c) :: cs.map (fun x => " " ++ x)

/-- Fields of one emitted data line: the timestamp text picks up the
print separator space before the following comma, the first value field
two spaces and every later one a single space. -/
def emitRow (ts : Nat) (cells : List (Option ℚ)) : List String :=
  (natToStr ts ++ " ") :: match cells with
  | [] => ["  "]
  | v :: vs => ("  " ++ isfiniteStr v) :: vs.map (fun x => " " ++ isfiniteStr x)

def rowCells (t : Table) (i : Nat) : List (Option ℚ) :=
  t.cols.map (fun c => c.getD i none)

/-- Model of the printiso emitter (src/tsutils/init, lines 31 to 43):
one header line, then one line per row in index order. -/
def printiso (t : Table) : List (List String) :=
  emitHeader t.names ::
    (List.range t.index.length).map
      (fun i => emitRow (t.index.getD i 0) (rowCells t i))

/-! ### Gap filling

Source: src/tstoolbox/functions/fill.py, function fill, lines 107 to 178.
The routine is embedded over an already normalized table (the function
body after the read and common keyword handling) with print input fixed
to False, so the filled frame itself is returned.  The helper asbestfreq
is called first; it is not under src/ and is modelled from the
specification as noted below.  The scipy interp1d evaluations for the
kinds zero and slinear are exact; for nearest the midpoint tie goes to
the earlier point; for quadratic and cubic the model evaluates piecewise
linearly between the bracketing valid points, which matches scipy in
totality and bounds behaviour but not in the interpolated value, and
no statement below depends on those values.  The point count minimums that
scipy enforces per kind are not modelled. -/

inductive FillErr
  | indexError
  | valueError
  | freqError
deriving DecidableEq

def presentVals (c : List (Option ℚ)) : List ℚ := c.filterMap id

/-- Column mean as pandas computes it: mean of the present values, NaN
(none) for an all-missing column. -/
def colMean (c : List (Option ℚ)) : Option ℚ :=
  match presentVals c with
  | [] => none
  | v :: vs => some (((v :: vs).sum) / ((v :: vs).length : ℚ))

def insertSorted (x : ℚ) : List ℚ → List ℚ
  | [] => [x]
  | a :: l => if x ≤ a then x :: a :: l else a :: insertSorted x l

def sortQ (l : List ℚ) : List ℚ := l.foldr insertSorted []

/-- Column median as pandas computes it on the present values. -/
def colMedian (c : List (Option ℚ)) : Option ℚ :=
  match sortQ (presentVals c) with
  | [] => none
  | v :: vs =>
    let n := (v :: vs).length
    if n % 2 = 1 then some ((v :: vs).getD (n / 2) 0)
    else some (((v :: vs).getD (n / 2 - 1) 0 + (v :: vs).getD (n / 2) 0) / 2)

def colMax (c : List (Option ℚ)) : Option ℚ :=
  match presentVals c with
  | [] => none
  | v :: vs => some (vs.foldl max v)

def colMin (c : List (Option ℚ)) : Option ℚ :=
  match presentVals c with
  | [] => none
  | v :: vs => some (vs.foldl min v)

/-- Forward fill: each missing entry takes the last earlier present
value, carried along the scan. -/
def ffillFrom (carry : Option ℚ) : List (Option ℚ) → List (Option ℚ)
  | [] => []
  | v :: l =>
    match v with
    | some q => some q :: ffillFrom (some q) l
    | none => carry :: ffillFrom carry l

def ffillCol (c : List (Option ℚ)) : List (Option ℚ) := ffillFrom none c

def bfillCol (c : List (Option ℚ)) : List (Option ℚ) :=
  (ffillFrom none c.reverse).reverse

/-- Replace every missing entry by the given value, the fillna of pandas
with a scalar or per-column statistic (none leaves NaN in place, as
fillna does when the statistic itself is NaN). -/
def fillnaOpt (s : Option ℚ) (c : List (Option ℚ)) : List (Option ℚ) :=
  c.map (fun v => match v with | some q => some q | none => s)

/-- Valid points of a column paired with their index positions. -/
def validPts (xs : List Nat) (c : List (Option ℚ)) : List (Nat × ℚ) :=
  (xs.zip c).filterMap (fun p => p.2.map (fun q => (p.1, q)))

/-- Interpolated value at a missing position: linear in the index
values between the last earlier and first later present points, the last
earlier value alone past the final present point, missing before the
first present point. -/
def interpAt (xs : List Nat) (pts : List (Nat × Option ℚ)) (i : Nat) : Option ℚ :=
  match ((pts.take i).filterMap (fun p => p.2.map (fun q => (p.1, q)))).getLast?,
      ((pts.drop (i + 1)).filterMap (fun p => p.2.map (fun q => (p.1, q)))).head? with
  | some pa, some pb =>
      some (pa.2 + (pb.2 - pa.2) *
        (((xs.getD i 0 : ℚ) - (pa.1 : ℚ)) / ((pb.1 : ℚ) - (pa.1 : ℚ))))
  | some pa, none => some pa.2
  | _, _ => none

/-- Model of pandas Series.interpolate with method values: a missing
entry between two present entries is linearly interpolated in the index
values, a missing entry after the last present one repeats it, and
missing entries before the first present one are left missing. -/
def interpolateValues (xs : List Nat) (c : List (Option ℚ)) : List (Option ℚ) :=
  (List.range c.length).map (fun i =>
    match c.getD i none with
    | some q => some q
    | none => interpAt xs (xs.zip c) i)

inductive Interp1dKind
  | nearest
  | zero
  | slinear
  | quadratic
  | cubic
deriving DecidableEq

/-- Evaluation of the scipy interp1d interpolant at x between the two
bracketing valid points (see the section comment for the modelling of
the kinds). -/
def interp1dAt (kind : Interp1dKind) (pts : List (Nat × ℚ)) (x : Nat) : ℚ :=
  let prev := (pts.filter (fun p => p.1 ≤ x)).getLast?
  let next := (pts.filter (fun p => x ≤ p.1)).head?
  match prev, next with
  | some pa, some pb =>
    match kind with
    | .nearest => if (x : ℚ) - (pa.1 : ℚ) ≤ (pb.1 : ℚ) - (x : ℚ) then pa.2 else pb.2
    | .zero => pa.2
    | _ =>
      if pb.1 = pa.1 then pa.2
      else pa.2 + (pb.2 - pa.2) *
        (((x : ℚ) - (pa.1 : ℚ)) / ((pb.1 : ℚ) - (pa.1 : ℚ)))
  | some pa, none => pa.2
  | none, some pb => pb.2
  | none, none => 0

/-- The scipy branch of fill for one column: interp1d is built from the
present values (raising ValueError when there are none), its evaluation
points are checked against its bounds (a bounds error raises
ValueError), and it is evaluated at the missing positions only. -/
def scipyFillCol (kind : Interp1dKind) (xs : List Nat) (c : List (Option ℚ)) :
    Except FillErr (List (Option ℚ)) :=
  if validPts xs c = [] then .error .valueError
  else
    if ((xs.zip c).filter (fun p => p.2.isNone)).all
        (fun p => ((validPts xs c).headD (0, 0)).1 ≤ p.1 &&
          p.1 ≤ ((validPts xs c).getLastD (0, 0)).1) then
      .ok ((xs.zip c).map (fun p =>
        match p.2 with
        | some q => some q
        | none => some (interp1dAt kind (validPts xs c) p.1)))
    else .error .valueError

/-- Method dispatch of fill (lines 142 to 171), applied to the padded
index and padded columns. -/
def applyMethod (method : String) (xs : List Nat)
    (cols : List (List (Option ℚ))) : Except FillErr (List (List (Option ℚ))) :=
  if method = "ffill" then .ok (cols.map ffillCol)
  else if method = "bfill" then .ok (cols.map bfillCol)
  else if method = "linear" then .ok (cols.map (interpolateValues xs))
  else if method = "nearest" then mapE (scipyFillCol .nearest xs) cols
  else if method = "zero" then mapE (scipyFillCol .zero xs) cols
  else if method = "slinear" then mapE (scipyFillCol .slinear xs) cols
  else if method = "quadratic" then mapE (scipyFillCol .quadratic xs) cols
  else if method = "cubic" then mapE (scipyFillCol .cubic xs) cols
  else if method = "mean" then .ok (cols.map (fun c => fillnaOpt (colMean c) c))
  else if method = "median" then .ok (cols.map (fun c => fillnaOpt (colMedian c) c))
  else if method = "max" then .ok (cols.map (fun c => fillnaOpt (colMax c) c))
  else if method = "min" then .ok (cols.map (fun c => fillnaOpt (colMin c) c))
  else
    match parseFloat method with
    | some v => .ok (cols.map (fun c => fillnaOpt (some v) c))
    | none => .error .valueError

/-- Whether consecutive timestamp differences are all equal. -/
def regularSpacing (l : List Nat) : Bool :=
  match (l.zip (l.drop 1)).map (fun p => (p.2 : Int) - (p.1 : Int)) with
  | [] => true
  | d :: ds => ds.all (fun x => x = d)

/-- Positional trim of the two synthetic boundary rows, iloc[1:-1]. -/
def trimList (l : List α) : List α := (l.drop 1).dropLast

/-- Model of the fill function (src/tstoolbox/functions/fill.py, lines
107 to 178).  Modelled from the spec: the helper tsutils.asbestfreq is
not under src/; per the specification (section 3, Frequency) inference
uses the constant interval between consecutive timestamps and fails
loudly when the spacing is irregular, and on success the regular table is
unchanged, so it is modelled as an up-front regularity check.  Then, as
in the source, the offset is the difference of the first two timestamps
(an index error when there are fewer than two rows), one synthetic row of
column means is placed one offset before the first and one offset after
the last timestamp, the method is applied, and the two synthetic rows are
trimmed off. -/
def fillAssemble (names : List String) (nIndex : List Nat) :
    Except FillErr (List (List (Option ℚ))) → Except FillErr Table
  | .error e => .error e
  | .ok newCols => .ok ⟨trimList nIndex, names, newCols.map trimList⟩

/-- The padded index of fill: one synthetic timestamp one offset before
the first and one offset after the last, with offset the difference of
the first two timestamps. -/
def padIndex (idx : List Nat) : List Nat :=
  (idx.getD 0 0 - (idx.getD 1 0 - idx.getD 0 0)) ::
    (idx ++ [idx.getLastD 0 + (idx.getD 1 0 - idx.getD 0 0)])

def fill (t : Table) (method : String) : Except FillErr Table :=
  if regularSpacing t.index then
    if t.index.length < 2 then .error .indexError
    else
      fillAssemble t.names (padIndex t.index)
        (applyMethod method (padIndex t.index)
          ((t.cols.zip (t.cols.map colMean)).map (fun p => p.2 :: p.1 ++ [p.2])))
  else .error .freqError

def hasMissing (t : Table) : Bool :=
  t.cols.any (fun c => c.any (fun v => v.isNone))

/-! ### Rolling window, peak detection, goodness of fit -/

/-- Modelled from the spec: the rolling window routine is not under src/
(only its tests are).  Per section 4.3 of the specification and the
pandas default it relies on, the output at row i is the aggregate of the
window of w entries ending at i, missing when i is among the first w-1
rows by definition, and also missing when the window itself contains a
missing entry (the pandas minimum period defaults to the window size,
matching the expected tables of test_rolling_window.py). -/
def rolling_window_sum (w : Nat) (c : List (Option ℚ)) : List (Option ℚ) :=
  (List.range c.length).map (fun i =>
    if i + 1 < w then none
    else
      let win := (c.drop (i + 1 - w)).take w
      if win.all (fun v => v.isSome) then some (presentVals win).sum else none)

/-- Modelled from the spec: the peak detection routine is not under src/
(only its tests are).  Per section 4.3 of the specification, the minmax
method marks a row as a maximum when it is strictly greater than every
other value inside the window centred on it, the original value is kept
at marked rows and the missing sentinel elsewhere, and boundary rows are
never flagged as extrema. -/
def peak_detection_minmax (window : Nat) (vals : List ℚ) :
    List (Option ℚ) × List (Option ℚ) :=
  let n := vals.length
  let r := window / 2
  let nbhd := fun i : Nat =>
    (List.range n).filter (fun j => j ≠ i && i ≤ j + r && j ≤ i + r)
  ((List.range n).map (fun i =>
      if 0 < i && i + 1 < n &&
          (nbhd i).all (fun j => vals.getD j 0 < vals.getD i 0) then
        some (vals.getD i 0)
      else none),
   (List.range n).map (fun i =>
      if 0 < i && i + 1 < n &&
          (nbhd i).all (fun j => vals.getD i 0 < vals.getD j 0) then
        some (vals.getD i 0)
      else none))

inductive GofErr
  | shapeError
deriving DecidableEq

def meanQ (l : List ℚ) : ℚ := l.sum / (l.length : ℚ)

/-- Modelled from the spec: the skill metrics module is not under src/.
The statistics are modelled from their standard definitions over the
paired series values, with the root mean square family represented by
mean squared deviations, since only rational arithmetic is embedded; the
column count check of gof, which the claims are about, is embedded from
src/tstoolbox/functions/gof.py itself. -/
def gofStats (ref pred : List ℚ) (stats : List String) : List (String × ℚ) :=
  let diffs := List.zipWith (fun a b => a - b) pred ref
  (if stats.contains "bias" then [("Bias", meanQ diffs)] else []) ++
  (if stats.contains "rmsd" then
    [("rmsd", meanQ (diffs.map (fun d => d * d)))] else []) ++
  (if stats.contains "crmsd" then
    [("crmsd", meanQ (diffs.map (fun d => (d - meanQ diffs) * (d - meanQ diffs))))]
   else []) ++
  (if stats.contains "ss" then
    [("Skill score (Murphy)",
      1 - meanQ (diffs.map (fun d => d * d)) /
        meanQ (ref.map (fun x => (x - meanQ ref) * (x - meanQ ref))))] else [])

/-- Model of gof (src/tstoolbox/functions/gof.py, lines 52 to 104): the
check that exactly two columns were selected (lines 71 to 76, raised as
the shape error of the error taxonomy of the specification), then the
statistics over the first column as observed and the second as
predicted. -/
def gof (t : Table) (stats : List String) : Except GofErr (List (String × ℚ)) :=
  if t.names.length ≠ 2 then .error .shapeError
  else .ok (gofStats (presentVals (t.cols.getD 0 []))
    (presentVals (t.cols.getD 1 [])) stats)

/-- The 24 hourly sine samples of the reference input table of
src/tests/test_peak_detect.py, as exact decimal rationals. -/
def sineVals : List ℚ :=
  [0, 0.258819, 0.5, 0.707107, 0.866025, 0.965926, 1, 0.965926, 0.866025,
   0.707107, 0.5, 0.258819, (122465 : ℚ) / 10 ^ 21, -0.258819, -0.5,
   -0.707107, -0.866025, -0.965926, -1, -0.965926, -0.866025, -0.707107,
   -0.5, -0.258819]

/-- A column name survives the emit and re-read cycle when it carries no
surrounding whitespace (the reader strips header fields) and contains no
comma (a comma would change the field count of the emitted line). -/
def nameOK (s : String) : Bool :=
  pyStrip s = s && !(s.data.contains ',')

/-- The forward fill pipeline applied by fill to one column: pad both
ends with the column mean, forward fill, trim the pads. -/
def ffillPad (c : List (Option ℚ)) : List (Option ℚ) :=
  trimList (ffillCol (colMean c :: c ++ [colMean c]))

/-! ### Claim theorems: short-table failure, method dispatch, gof shape -/

/-- The recognized methods covered by the completeness theorem: the
dispatch keywords other than the quadratic and cubic spline kinds, whose
minimum point count requirements in scipy are outside this model. -/
def coveredMethods : List String :=
  ["ffill", "bfill", "linear", "nearest", "zero", "slinear",
   "mean", "median", "max", "min"]

/-! ### Theorems -/

theorem digitsRev_eq_digits (fuel n : Nat) (h : n ≤ fuel) :
    digitsRev fuel n = Nat.digits 10 n := by
  induction fuel generalizing n with
  | zero =>
    have : n = 0 := Nat.le_zero.mp h
    subst this
    simp [digitsRev]
  | succ fuel ih =>
    unfold digitsRev
    split
    · next h0 => subst h0; simp
    · next h0 =>
      have hpos : 0 < n := Nat.pos_of_ne_zero h0
      have hdiv : n / 10 < n := Nat.div_lt_self hpos (by norm_num)
      rw [ih (n / 10) (by omega)]
      exact (Nat.digits_def' (by norm_num) hpos).symm

theorem natDigits_eq (n : Nat) : natDigits n = Nat.digits 10 n :=
  digitsRev_eq_digits n n le_rfl

theorem digitVal_digitChar {d : Nat} (h : d < 10) :
    digitVal (digitChar d) = d := by
  interval_cases d <;> decide

theorem isDigitChar_digitChar {d : Nat} (h : d < 10) :
    isDigitChar (digitChar d) = true := by
  interval_cases d <;> decide

theorem not_isSpaceChar_digitChar {d : Nat} (h : d < 10) :
    isSpaceChar (digitChar d) = false := by
  interval_cases d <;> decide

theorem natChars_ne_nil (n : Nat) : natChars n ≠ [] := by
  unfold natChars
  split
  · simp
  · next h =>
    have : Nat.digits 10 n ≠ [] := Nat.digits_ne_nil_iff_ne_zero.mpr h
    simpa [natDigits_eq] using this

theorem natChars_all_digit (n : Nat) :
    ∀ c ∈ natChars n, isDigitChar c = true := by
  intro c hc
  unfold natChars at hc
  split at hc
  · simp at hc; subst hc; decide
  · simp only [List.mem_reverse, List.mem_map] at hc
    obtain ⟨d, hd, rfl⟩ := hc
    rw [natDigits_eq] at hd
    exact isDigitChar_digitChar (Nat.digits_lt_base (by norm_num) hd)

theorem natChars_not_space (n : Nat) :
    ∀ c ∈ natChars n, isSpaceChar c = false := by
  intro c hc
  unfold natChars at hc
  split at hc
  · simp at hc; subst hc; decide
  · simp only [List.mem_reverse, List.mem_map] at hc
    obtain ⟨d, hd, rfl⟩ := hc
    rw [natDigits_eq] at hd
    exact not_isSpaceChar_digitChar (Nat.digits_lt_base (by norm_num) hd)

theorem valDigits_aux (ds : List Nat) (a : Nat) (h : ∀ d ∈ ds, d < 10) :
    List.foldl (fun x c => 10 * x + digitVal c) a ((ds.map digitChar).reverse) =
      a * 10 ^ ds.length + Nat.ofDigits 10 ds := by
  induction ds generalizing a with
  | nil => simp [Nat.ofDigits]
  | cons d tl ih =>
    have hd : d < 10 := h d (by simp)
    have htl : ∀ x ∈ tl, x < 10 := fun x hx => h x (by simp [hx])
    simp only [List.map_cons, List.reverse_cons, List.foldl_append,
      List.foldl_cons, List.foldl_nil]
    rw [ih a htl, digitVal_digitChar hd, Nat.ofDigits_cons]
    simp only [List.length_cons, pow_succ]
    ring

theorem valDigits_natChars (n : Nat) : valDigits (natChars n) = n := by
  unfold natChars valDigits
  split
  · next h => subst h; decide
  · have h10 : ∀ d ∈ Nat.digits 10 n, d < 10 :=
      fun d hd => Nat.digits_lt_base (by norm_num) hd
    rw [natDigits_eq, valDigits_aux _ 0 h10, Nat.ofDigits_digits]
    simp

theorem valDigits_leading_zeros (k : Nat) (l : List Char) :
    valDigits (List.replicate k '0' ++ l) = valDigits l := by
  induction k with
  | zero => simp
  | succ k ih =>
    simp only [List.replicate_succ, List.cons_append, valDigits,
      List.foldl_cons] at *
    simpa [digitVal] using ih

theorem natChars_length_le {f e : Nat} (hf : f < 10 ^ e) (he : 1 ≤ e) :
    (natChars f).length ≤ e := by
  unfold natChars
  split
  · simpa using he
  · next hne =>
    rw [natDigits_eq]
    simp only [List.length_reverse, List.length_map]
    by_contra hgt
    push_neg at hgt
    have h1 : 10 ^ (Nat.digits 10 f).length ≤ 10 * f :=
      Nat.base_pow_length_digits_le 10 f (by norm_num) hne
    have h2 : 10 ^ (e + 1) ≤ 10 ^ (Nat.digits 10 f).length :=
      Nat.pow_le_pow_right (by norm_num) hgt
    have h3 : 10 * 10 ^ e ≤ 10 * f := by
      calc 10 * 10 ^ e = 10 ^ (e + 1) := by ring
        _ ≤ 10 ^ (Nat.digits 10 f).length := h2
        _ ≤ 10 * f := h1
    have := Nat.le_of_mul_le_mul_left h3 (by norm_num)
    omega

theorem stripChars_cons_space (l : List Char) :
    stripChars (' ' :: l) = stripChars l := by
  have h : isSpaceChar ' ' = true := by decide
  simp [stripChars, List.dropWhile_cons, h]

theorem dropWhile_eq_self_of_head {l : List Char} {p : Char → Bool}
    (h : ∀ c, l.head? = some c → p c = false) : l.dropWhile p = l := by
  cases l with
  | nil => rfl
  | cons a tl =>
    have := h a rfl
    simp [List.dropWhile, this]

theorem stripChars_eq_self {l : List Char}
    (hh : ∀ c, l.head? = some c → isSpaceChar c = false)
    (hl : ∀ c, l.getLast? = some c → isSpaceChar c = false) :
    stripChars l = l := by
  unfold stripChars
  rw [dropWhile_eq_self_of_head hh]
  rw [dropWhile_eq_self_of_head (by
    intro c hc
    apply hl
    rwa [List.head?_reverse] at hc)]
  simp

theorem stripChars_append_space {l : List Char}
    (hh : ∀ c, l.head? = some c → isSpaceChar c = false)
    (hl : ∀ c, l.getLast? = some c → isSpaceChar c = false) :
    stripChars (l ++ [' ']) = l := by
  cases l with
  | nil => simp [stripChars, List.dropWhile]
  | cons a tl =>
    unfold stripChars
    rw [dropWhile_eq_self_of_head (l := a :: tl ++ [' '])
      (by intro c hc
          simp only [List.cons_append, List.head?_cons, Option.some.injEq] at hc
          exact hc ▸ hh a rfl)]
    have hrev : ((a :: tl) ++ [' ']).reverse = ' ' :: (a :: tl).reverse := by
      simp
    rw [hrev, List.dropWhile_cons]
    have hsp : isSpaceChar ' ' = true := by decide
    rw [hsp]
    simp only [if_true]
    rw [dropWhile_eq_self_of_head (by
      intro c hc
      apply hl
      rwa [List.head?_reverse] at hc)]
    simp

theorem takeWhile_digits_append (l₁ l₂ : List Char)
    (h : ∀ c ∈ l₁, isDigitChar c = true) :
    (l₁ ++ '.' :: l₂).takeWhile isDigitChar = l₁ ∧
      (l₁ ++ '.' :: l₂).dropWhile isDigitChar = '.' :: l₂ := by
  induction l₁ with
  | nil =>
    have hdot : isDigitChar '.' = false := by decide
    constructor <;> simp [List.takeWhile_cons, List.dropWhile_cons, hdot]
  | cons a tl ih =>
    have ha : isDigitChar a = true := h a (by simp)
    have htl : ∀ c ∈ tl, isDigitChar c = true := fun c hc => h c (by simp [hc])
    obtain ⟨h1, h2⟩ := ih htl
    constructor
    · simp [List.takeWhile_cons, ha, h1]
    · simp [List.dropWhile_cons, ha, h2]

theorem takeWhile_all_digits (l : List Char)
    (h : ∀ c ∈ l, isDigitChar c = true) :
    l.takeWhile isDigitChar = l ∧ l.dropWhile isDigitChar = [] := by
  induction l with
  | nil => simp
  | cons a tl ih =>
    have ha : isDigitChar a = true := h a (by simp)
    have htl : ∀ c ∈ tl, isDigitChar c = true := fun c hc => h c (by simp [hc])
    obtain ⟨h1, h2⟩ := ih htl
    constructor
    · simp [List.takeWhile_cons, ha, h1]
    · simp [List.dropWhile_cons, ha, h2]

theorem fracCharsOf_all_digit (e f : Nat) :
    ∀ c ∈ fracCharsOf e f, isDigitChar c = true := by
  intro c hc
  unfold fracCharsOf at hc
  rcases List.mem_append.mp hc with h | h
  · rw [List.eq_of_mem_replicate h]; decide
  · exact natChars_all_digit f c h

theorem fracCharsOf_length {e f : Nat} (hf : f < 10 ^ e) (he : 1 ≤ e) :
    (fracCharsOf e f).length = e := by
  unfold fracCharsOf
  have := natChars_length_le hf he
  simp only [List.length_append, List.length_replicate]
  omega

theorem valDigits_fracCharsOf (e f : Nat) :
    valDigits (fracCharsOf e f) = f := by
  unfold fracCharsOf
  rw [valDigits_leading_zeros, valDigits_natChars]

theorem isEmpty_natChars (n : Nat) : (natChars n).isEmpty = false := by
  obtain ⟨d, tl, hd⟩ := List.exists_cons_of_ne_nil (natChars_ne_nil n)
  rw [hd]
  rfl

theorem parseUFloat_uFloatChars (m e : Nat) :
    parseUFloat (uFloatChars m e) = some ((m : ℚ) / (10 : ℚ) ^ e) := by
  unfold uFloatChars
  split
  · next he =>
    subst he
    obtain ⟨h1, h2⟩ :=
      takeWhile_digits_append (natChars m) ['0'] (natChars_all_digit m)
    have hfs : List.takeWhile isDigitChar ['0'] = ['0'] := by decide
    have hds : List.dropWhile isDigitChar ['0'] = [] := by decide
    have hv0 : valDigits ['0'] = 0 := by decide
    simp only [parseUFloat, h1, h2, hfs, hds, List.isEmpty_nil,
      isEmpty_natChars, Bool.false_and, Bool.not_false, Bool.and_self,
      Bool.true_and, Bool.and_true, if_true, hv0, valDigits_natChars]
    norm_num
  · next he =>
    have he1 : 1 ≤ e := Nat.one_le_iff_ne_zero.mpr he
    obtain ⟨h1, h2⟩ := takeWhile_digits_append (natChars (m / 10 ^ e))
      (fracCharsOf e (m % 10 ^ e)) (natChars_all_digit _)
    obtain ⟨h3, h4⟩ := takeWhile_all_digits _ (fracCharsOf_all_digit e (m % 10 ^ e))
    have hmod : m % 10 ^ e < 10 ^ e := Nat.mod_lt m (by positivity)
    simp only [parseUFloat, h1, h2, h3, h4, List.isEmpty_nil,
      isEmpty_natChars, Bool.false_and, Bool.not_false, Bool.and_self,
      Bool.true_and, Bool.and_true, if_true, valDigits_natChars,
      valDigits_fracCharsOf, fracCharsOf_length hmod he1]
    congr 1
    have h10 : ((10 : ℚ) ^ e) ≠ 0 := by positivity
    rw [eq_div_iff h10, add_mul, div_mul_cancel₀ _ h10]
    have hdm := congrArg (fun x : ℕ => (x : ℚ)) (Nat.div_add_mod m (10 ^ e))
    push_cast at hdm ⊢
    linarith [hdm]

theorem head_digit_natChars_append (n : Nat) (l : List Char) (c : Char)
    (h : (natChars n ++ l).head? = some c) : isDigitChar c = true := by
  obtain ⟨d, tl, hd⟩ := List.exists_cons_of_ne_nil (natChars_ne_nil n)
  rw [hd] at h
  simp only [List.cons_append, List.head?_cons, Option.some.injEq] at h
  subst h
  exact natChars_all_digit n d (by rw [hd]; exact List.mem_cons_self d tl)

theorem uFloatChars_head_digit (m e : Nat) :
    ∀ c, (uFloatChars m e).head? = some c → isDigitChar c = true := by
  intro c hc
  unfold uFloatChars at hc
  split at hc
  · exact head_digit_natChars_append _ _ _ hc
  · exact head_digit_natChars_append _ _ _ hc

theorem getLast?_digit_of_all {l : List Char} (_hne : l ≠ [])
    (hall : ∀ x ∈ l, isDigitChar x = true) :
    ∀ c, l.getLast? = some c → isDigitChar c = true := by
  intro c hc
  obtain ⟨h, heq⟩ := List.mem_getLast?_eq_getLast hc
  exact heq ▸ hall _ (List.getLast_mem h)

theorem fracCharsOf_ne_nil (e f : Nat) : fracCharsOf e f ≠ [] := by
  unfold fracCharsOf
  intro h
  rcases List.append_eq_nil.mp h with ⟨_, h2⟩
  exact natChars_ne_nil f h2

theorem uFloatChars_last_digit (m e : Nat) :
    ∀ c, (uFloatChars m e).getLast? = some c → isDigitChar c = true := by
  intro c hc
  unfold uFloatChars at hc
  split at hc
  · rw [List.getLast?_append_cons] at hc
    have : (('.' : Char) :: ['0']).getLast? = some '0' := rfl
    rw [this] at hc
    cases hc
    decide
  · rw [List.getLast?_append_cons] at hc
    have hefrac := fracCharsOf_ne_nil e (m % 10 ^ e)
    rw [show ('.' :: fracCharsOf e (m % 10 ^ e)) =
        ['.'] ++ fracCharsOf e (m % 10 ^ e) from rfl,
      List.getLast?_append_of_ne_nil _ hefrac] at hc
    exact getLast?_digit_of_all hefrac (fracCharsOf_all_digit _ _) c hc

theorem not_space_of_digit {c : Char} (h : isDigitChar c = true) :
    isSpaceChar c = false := by
  unfold isSpaceChar
  by_contra hcon
  simp only [Bool.not_eq_false, Bool.or_eq_true, decide_eq_true_eq] at hcon
  rcases hcon with ((h1 | h1) | h1) | h1 <;> subst h1 <;> exact absurd h (by decide)

theorem not_sign_of_digit {c : Char} (h : isDigitChar c = true) :
    c ≠ '-' ∧ c ≠ '+' := by
  constructor <;> intro h1 <;> subst h1 <;> exact absurd h (by decide)

theorem uFloatChars_head_not_space (m e : Nat) :
    ∀ c, (uFloatChars m e).head? = some c → isSpaceChar c = false :=
  fun c hc => not_space_of_digit (uFloatChars_head_digit m e c hc)

theorem uFloatChars_last_not_space (m e : Nat) :
    ∀ c, (uFloatChars m e).getLast? = some c → isSpaceChar c = false :=
  fun c hc => not_space_of_digit (uFloatChars_last_digit m e c hc)

theorem uFloatChars_ne_nil (m e : Nat) : uFloatChars m e ≠ [] := by
  unfold uFloatChars
  split <;> intro h <;> rcases List.append_eq_nil.mp h with ⟨h1, _⟩ <;>
    exact natChars_ne_nil _ h1

theorem parseFloatChars_uFloatChars (m e : Nat) :
    parseFloatChars (uFloatChars m e) = some ((m : ℚ) / (10 : ℚ) ^ e) := by
  obtain ⟨d, tl, hd⟩ := List.exists_cons_of_ne_nil (uFloatChars_ne_nil m e)
  have hdig : isDigitChar d = true :=
    uFloatChars_head_digit m e d (by rw [hd]; rfl)
  obtain ⟨h1, h2⟩ := not_sign_of_digit hdig
  rw [hd, parseFloatChars, if_neg h1, if_neg h2, ← hd,
    parseUFloat_uFloatChars]

theorem stripChars_uFloatChars (m e : Nat) :
    stripChars (uFloatChars m e) = uFloatChars m e :=
  stripChars_eq_self (uFloatChars_head_not_space m e)
    (uFloatChars_last_not_space m e)

theorem floatChars_eq {q : ℚ} {e : Nat} (he : decExp q = some e) :
    floatChars q =
      if q.num < 0 then
        '-' :: uFloatChars (q.num.natAbs * (10 ^ e / q.den)) e
      else uFloatChars (q.num.natAbs * (10 ^ e / q.den)) e := by
  unfold floatChars
  rw [he]

/-- Round trip of value emission and parsing, the analogue of the Python
fact that float(str(x)) = x exactly, for decimal rationals. -/
theorem parseFloat_floatToStr {q : ℚ} (h : isDecimalRat q = true) :
    parseFloat (floatToStr q) = some q := by
  unfold isDecimalRat at h
  obtain ⟨e, he⟩ := Option.isSome_iff_exists.mp h
  have hmem := List.find?_some he
  have hdvd : (q.den : ℕ) ∣ 10 ^ e :=
    Nat.dvd_of_mod_eq_zero (by simpa using hmem)
  have hkk : q.den * (10 ^ e / q.den) = 10 ^ e := Nat.mul_div_cancel' hdvd
  have hk0 : (10 : ℕ) ^ e / q.den ≠ 0 := by
    intro h0
    rw [h0, Nat.mul_zero] at hkk
    have hp : (0 : ℕ) < 10 ^ e := by positivity
    omega
  have hval : ((q.num.natAbs * (10 ^ e / q.den) : ℕ) : ℚ) / (10 : ℚ) ^ e
      = (q.num.natAbs : ℚ) / (q.den : ℚ) := by
    have h10 : ((10 : ℚ) ^ e) = (q.den : ℚ) * ((10 ^ e / q.den : ℕ) : ℚ) := by
      exact_mod_cast congrArg (Nat.cast : ℕ → ℚ) hkk.symm
    rw [h10]
    push_cast
    rw [mul_div_mul_right _ _ (by exact_mod_cast hk0)]
  show parseFloatChars (stripChars (floatChars q)) = some q
  rw [floatChars_eq he]
  by_cases hneg : q.num < 0
  · rw [if_pos hneg]
    rw [show stripChars ('-' :: uFloatChars (q.num.natAbs * (10 ^ e / q.den)) e) =
        '-' :: uFloatChars (q.num.natAbs * (10 ^ e / q.den)) e from
      stripChars_eq_self
        (by intro c hc; cases hc; decide)
        (by
          intro c hc
          rw [show ('-' :: uFloatChars (q.num.natAbs * (10 ^ e / q.den)) e) =
              ['-'] ++ uFloatChars (q.num.natAbs * (10 ^ e / q.den)) e from rfl,
            List.getLast?_append_of_ne_nil _ (uFloatChars_ne_nil _ _)] at hc
          exact uFloatChars_last_not_space _ _ c hc)]
    rw [parseFloatChars, if_pos rfl, parseUFloat_uFloatChars]
    have habs : ((q.num.natAbs : ℚ)) = -(q.num : ℚ) := by
      rw [Int.cast_natAbs, abs_of_neg hneg]
      push_cast
      ring
    rw [hval, habs, neg_div, Option.map_some', neg_neg, Rat.num_div_den]
  · rw [if_neg hneg, stripChars_uFloatChars, parseFloatChars_uFloatChars, hval]
    have habs : ((q.num.natAbs : ℚ)) = (q.num : ℚ) := by
      rw [Int.cast_natAbs, abs_of_nonneg (le_of_not_lt hneg)]
    rw [habs, Rat.num_div_den]

/-! ### General list and mapE lemmas -/

theorem getD_map_range {α : Type} {f : Nat → α} {n i : Nat} {d : α} (h : i < n) :
    ((List.range n).map f).getD i d = f i := by
  have hlen : i < ((List.range n).map f).length := by simpa using h
  rw [List.getD_eq_getElem _ _ hlen, List.getElem_map, List.getElem_range]

theorem map_range_getD {α : Type} (l : List α) (d : α) :
    (List.range l.length).map (fun i => l.getD i d) = l := by
  apply List.ext_getElem
  · simp
  · intro i h1 h2
    simp [List.getElem_map, List.getElem_range, List.getD,
      List.getElem?_eq_getElem h2]

theorem mapE_ok_of {α β ε : Type} {f : α → Except ε β} {g : α → β} :
    ∀ {l : List α}, (∀ x ∈ l, f x = .ok (g x)) → mapE f l = .ok (l.map g) := by
  intro l
  induction l with
  | nil => intro _; rfl
  | cons a tl ih =>
    intro h
    unfold mapE
    rw [h a (by simp), ih (fun x hx => h x (by simp [hx]))]
    rfl

theorem mapE_ok_length {α β ε : Type} {f : α → Except ε β} :
    ∀ {l : List α} {out : List β}, mapE f l = .ok out → out.length = l.length := by
  intro l
  induction l with
  | nil =>
    intro out h
    unfold mapE at h
    simp only [Except.ok.injEq] at h
    subst h
    rfl
  | cons a tl ih =>
    intro out h
    unfold mapE at h
    cases hfa : f a with
    | error e => rw [hfa] at h; simp at h
    | ok b =>
      rw [hfa] at h
      cases hrest : mapE f tl with
      | error e => rw [hrest] at h; simp at h
      | ok bs =>
        rw [hrest] at h
        simp only [Except.ok.injEq] at h
        subst h
        simp [ih hrest]

theorem mapE_ok_map {α β γ ε : Type} {f : α → Except ε β} {k : β → γ} {g : α → γ}
    (hp : ∀ x y, f x = .ok y → k y = g x) :
    ∀ {l : List α} {out : List β}, mapE f l = .ok out → out.map k = l.map g := by
  intro l
  induction l with
  | nil =>
    intro out h
    unfold mapE at h
    simp only [Except.ok.injEq] at h
    subst h
    rfl
  | cons a tl ih =>
    intro out h
    unfold mapE at h
    cases hfa : f a with
    | error e => rw [hfa] at h; simp at h
    | ok b =>
      rw [hfa] at h
      cases hrest : mapE f tl with
      | error e => rw [hrest] at h; simp at h
      | ok bs =>
        rw [hrest] at h
        simp only [Except.ok.injEq] at h
        subst h
        simp only [List.map_cons]
        rw [hp a b hfa, ih hrest]

theorem trimList_pad {α : Type} (a b : α) (l : List α) :
    trimList (a :: (l ++ [b])) = l := by
  unfold trimList
  rw [List.drop_one, List.tail_cons, List.dropLast_concat]

theorem zip_map_map {α β γ : Type} (l : List α) (g : α → β) (h : α × β → γ) :
    (l.zip (l.map g)).map h = l.map (fun a => h (a, g a)) := by
  induction l with
  | nil => rfl
  | cons a tl ih => simp [List.zip_cons_cons, ih]

/-- Claim C9: fill fails with the out-of-bounds index error on every
table with fewer than two rows, whatever the method, because the
frequency offset is taken from the difference of the first two
timestamps before the method dispatch runs. -/
theorem regularSpacing_short {l : List Nat} (h : l.length < 2) :
    regularSpacing l = true := by
  cases l with
  | nil => rfl
  | cons a tl =>
    cases tl with
    | nil => rfl
    | cons b r => simp at h; omega

theorem fill_short_table_index_error (t : Table) (m : String)
    (h : t.index.length < 2) : fill t m = .error .indexError := by
  unfold fill
  rw [if_pos (regularSpacing_short h), if_pos h]

/-- Claim C9 witness: a one-row table hits the index error for a
recognized method and for the default forward fill. -/
theorem fill_short_table_index_error_witness :
    fill ⟨[5], ["a"], [[some 1]]⟩ "linear" = .error .indexError ∧
    fill ⟨[], [], []⟩ "ffill" = .error .indexError :=
  ⟨fill_short_table_index_error _ _ (by decide),
   fill_short_table_index_error _ _ (by decide)⟩

/-- Claim C2: the failing input of the code bug.  The docstring of fill
lists spline as a supported method, and the specification repeats it, but
the dispatch of fill has no spline branch, so the method falls through to
float() and raises ValueError exactly as the unrecognized method camel
does. -/
theorem fill_spline_raises :
    fill ⟨[0, 1], ["a"], [[some 1, none]]⟩ "spline" = .error .valueError ∧
    fill ⟨[0, 1], ["a"], [[some 1, none]]⟩ "camel" = .error .valueError ∧
    fill ⟨[0, 1], ["a"], [[some 1, none]]⟩ "2.5" =
      .ok ⟨[0, 1], ["a"], [[some 1, some (mkRat 5 2)]]⟩ := by
  refine ⟨?_, ?_, ?_⟩ <;> with_unfolding_all rfl

/-- Claim C7: gof raises the shape error exactly when the number of
selected columns differs from two, and computes the requested statistics
when exactly two are supplied. -/
theorem gof_shape (t : Table) (stats : List String) :
    (gof t stats = .error .shapeError ↔ t.names.length ≠ 2) ∧
    (t.names.length = 2 →
      gof t stats = .ok (gofStats (presentVals (t.cols.getD 0 []))
        (presentVals (t.cols.getD 1 [])) stats)) := by
  unfold gof
  by_cases h : t.names.length = 2
  · rw [if_neg (by simp [h])]
    exact ⟨⟨fun he => by simp at he, fun hne => absurd h hne⟩, fun _ => rfl⟩
  · rw [if_pos h]
    exact ⟨⟨fun _ => h, fun _ => rfl⟩, fun h2 => absurd h2 h⟩

/-- Claim C7 witness: one column and three columns raise the shape
error, two columns succeed. -/
theorem gof_shape_witness :
    gof ⟨[0], ["a"], [[some 1]]⟩ ["bias"] = .error .shapeError ∧
    gof ⟨[0], ["a", "b", "c"], [[some 1], [some 1], [some 1]]⟩ ["bias"] =
      .error .shapeError ∧
    gof ⟨[0], ["a", "b"], [[some 1], [some 1]]⟩ ["bias"] =
      .ok (gofStats [1] [1] ["bias"]) :=
  ⟨(gof_shape _ _).1.mpr (by decide),
   (gof_shape _ _).1.mpr (by decide),
   (gof_shape ⟨[0], ["a", "b"], [[some 1], [some 1]]⟩ ["bias"]).2 (by decide)⟩

/-- Claim C5: for every window size w of at least one that fits the
column, when the first w entries are present the rolling sum at row w-1
is the sum of the first w input values, and every row before w-1 is
missing. -/
theorem rolling_sum_first_window (c : List (Option ℚ)) (w : Nat)
    (h1 : 1 ≤ w) (h2 : w ≤ c.length)
    (h3 : (c.take w).all (fun v => v.isSome) = true) :
    (rolling_window_sum w c).getD (w - 1) none =
      some (presentVals (c.take w)).sum ∧
    ∀ i, i + 1 < w → (rolling_window_sum w c).getD i none = none := by
  constructor
  · have hlt : w - 1 < c.length := by omega
    unfold rolling_window_sum
    rw [getD_map_range hlt]
    have hw : w - 1 + 1 = w := by omega
    rw [hw, if_neg (lt_irrefl w)]
    have hz : w - w = 0 := by omega
    rw [hz, List.drop_zero]
    simp only [h3, if_true]
  · intro i hi
    have hlt : i < c.length := by omega
    unfold rolling_window_sum
    rw [getD_map_range hlt, if_pos hi]

/-- Claim C5 witness: window two over two present values, matching the
rolling window sum test table. -/
theorem rolling_sum_first_window_witness :
    (rolling_window_sum 2 [some (mkRat 9 2), some (mkRat 23 5)]).getD 1 none =
      some (presentVals ([some (mkRat 9 2), some (mkRat 23 5)].take 2)).sum ∧
    ∀ i, i + 1 < 2 →
      (rolling_window_sum 2 [some (mkRat 9 2), some (mkRat 23 5)]).getD i none
        = none :=
  rolling_sum_first_window _ 2 (by decide) (by decide) (by decide)

/-- Claim C6: on the 24 hourly sine samples, peak detection with the
minmax method and window three flags exactly the single maximum, value
one at hour six, and the single minimum, value minus one at hour
eighteen, with the missing sentinel everywhere else; in particular the
boundary rows zero and twenty-three are not flagged. -/
theorem peak_detection_sine :
    peak_detection_minmax 3 sineVals =
      ((List.range 24).map (fun i => if i = 6 then some (1 : ℚ) else none),
       (List.range 24).map (fun i => if i = 18 then some (-1 : ℚ) else none)) := by
  with_unfolding_all rfl

/-- Claim C1 counterexample: a two-row table whose second column is
entirely missing.  The forward fill method is recognized and fill
succeeds, but the returned table still contains missing values, because
the synthetic boundary rows carry the column mean, which is itself
missing for an all-missing column. -/
theorem fill_allmissing_counterexample :
    fill ⟨[0, 1], ["a", "b"], [[some 1, none], [none, none]]⟩ "ffill" =
      .ok ⟨[0, 1], ["a", "b"], [[some 1, some 1], [none, none]]⟩ ∧
    hasMissing ⟨[0, 1], ["a", "b"], [[some 1, some 1], [none, none]]⟩ = true := by
  refine ⟨?_, ?_⟩ <;> with_unfolding_all rfl

/-- Claim C3 counterexample: emitting a table with no rows produces only
the header line, and re-ingesting it fails with the empty-input error
instead of returning the table. -/
theorem roundtrip_empty_counterexample :
    read_iso_ts (printiso ⟨[], ["a"], [[]]⟩) = .error .emptyError := by
  with_unfolding_all rfl

/-- Claim C4 counterexample: two rows whose timestamps arrive out of
order parse without error, and the resulting table keeps them in input
order, so its index is not strictly increasing. -/
theorem read_unordered_counterexample :
    read_iso_ts [["Datetime", " a"], ["2 ", "  1.0"], ["1 ", "  2.0"]] =
      .ok ⟨[2, 1], ["a"], [[some 1, some 2]]⟩ ∧
    ¬ List.Pairwise (· < ·) ([2, 1] : List Nat) :=
  ⟨by with_unfolding_all rfl, by decide⟩

/-! ### Fill helper lemmas -/

theorem mapE_ok_exists {α β ε : Type} {f : α → Except ε β} {P : β → Prop} :
    ∀ {l : List α}, (∀ x ∈ l, ∃ y, f x = .ok y ∧ P y) →
      ∃ out, mapE f l = .ok out ∧ ∀ y ∈ out, P y := by
  intro l
  induction l with
  | nil => intro _; exact ⟨[], rfl, by simp⟩
  | cons a tl ih =>
    intro h
    obtain ⟨y, hy, hPy⟩ := h a (by simp)
    obtain ⟨out, hout, hPout⟩ := ih (fun x hx => h x (by simp [hx]))
    refine ⟨y :: out, ?_, ?_⟩
    · unfold mapE
      rw [hy, hout]
    · intro z hz
      rcases List.mem_cons.mp hz with rfl | hz2
      · exact hPy
      · exact hPout z hz2

theorem presentVals_pad_ne (m : ℚ) (c : List (Option ℚ)) :
    presentVals (some m :: (c ++ [some m])) ≠ [] := by
  unfold presentVals
  simp [List.filterMap_cons]

theorem colMean_isSome_of {c : List (Option ℚ)} (h : presentVals c ≠ []) :
    ∃ m, colMean c = some m := by
  unfold colMean
  cases hp : presentVals c with
  | nil => exact absurd hp h
  | cons v vs => exact ⟨_, rfl⟩

theorem insertSorted_ne_nil (x : ℚ) (l : List ℚ) : insertSorted x l ≠ [] := by
  cases l with
  | nil => simp [insertSorted]
  | cons a tl =>
    unfold insertSorted
    split <;> simp

theorem sortQ_ne_nil {l : List ℚ} (h : l ≠ []) : sortQ l ≠ [] := by
  cases l with
  | nil => exact absurd rfl h
  | cons a tl =>
    unfold sortQ
    simp only [List.foldr_cons]
    exact insertSorted_ne_nil a _

theorem colMedian_isSome_of {c : List (Option ℚ)} (h : presentVals c ≠ []) :
    ∃ m, colMedian c = some m := by
  unfold colMedian
  cases hp : sortQ (presentVals c) with
  | nil => exact absurd hp (sortQ_ne_nil h)
  | cons v vs =>
    simp only
    split
    · exact ⟨_, rfl⟩
    · exact ⟨_, rfl⟩

theorem colMax_isSome_of {c : List (Option ℚ)} (h : presentVals c ≠ []) :
    ∃ m, colMax c = some m := by
  unfold colMax
  cases hp : presentVals c with
  | nil => exact absurd hp h
  | cons v vs => exact ⟨_, rfl⟩

theorem colMin_isSome_of {c : List (Option ℚ)} (h : presentVals c ≠ []) :
    ∃ m, colMin c = some m := by
  unfold colMin
  cases hp : presentVals c with
  | nil => exact absurd hp h
  | cons v vs => exact ⟨_, rfl⟩

theorem fillnaOpt_all (s : ℚ) (c : List (Option ℚ)) :
    ∀ v ∈ fillnaOpt (some s) c, v.isSome = true := by
  intro v hv
  unfold fillnaOpt at hv
  simp only [List.mem_map] at hv
  obtain ⟨x, _, rfl⟩ := hv
  cases x <;> rfl

theorem ffillFrom_some_all :
    ∀ (c : List (Option ℚ)) (q : ℚ), ∀ v ∈ ffillFrom (some q) c, v.isSome = true := by
  intro c
  induction c with
  | nil => intro q v hv; simp [ffillFrom] at hv
  | cons a tl ih =>
    intro q v hv
    cases a with
    | some b =>
      rw [show ffillFrom (some q) (some b :: tl) =
          some b :: ffillFrom (some b) tl from rfl] at hv
      rcases List.mem_cons.mp hv with rfl | hv2
      · rfl
      · exact ih b v hv2
    | none =>
      rw [show ffillFrom (some q) (none :: tl) =
          some q :: ffillFrom (some q) tl from rfl] at hv
      rcases List.mem_cons.mp hv with rfl | hv2
      · rfl
      · exact ih q v hv2

theorem ffillCol_pad_all (m : ℚ) (c : List (Option ℚ)) :
    ∀ v ∈ ffillCol (some m :: (c ++ [some m])), v.isSome = true := by
  intro v hv
  rw [show ffillCol (some m :: (c ++ [some m])) =
      some m :: ffillFrom (some m) (c ++ [some m]) from rfl] at hv
  rcases List.mem_cons.mp hv with rfl | hv2
  · rfl
  · exact ffillFrom_some_all _ m v hv2

theorem reverse_pad (m : ℚ) (c : List (Option ℚ)) :
    (some m :: (c ++ [some m])).reverse = some m :: (c.reverse ++ [some m]) := by
  simp

theorem bfillCol_pad_all (m : ℚ) (c : List (Option ℚ)) :
    ∀ v ∈ bfillCol (some m :: (c ++ [some m])), v.isSome = true := by
  intro v hv
  unfold bfillCol at hv
  rw [reverse_pad, List.mem_reverse] at hv
  exact ffillCol_pad_all m c.reverse v hv

theorem getLast?_isSome_of_head {α β : Type} (f : α → Option β)
    (l : List α) (a : α) (b : β) (hab : f a = some b) :
    ((a :: l).filterMap f).getLast?.isSome = true := by
  rw [List.filterMap_cons, hab]
  rw [List.getLast?_eq_getLast_of_ne_nil (by simp)]
  rfl

theorem head?_isSome_of_mem {α β : Type} (f : α → Option β)
    {l : List α} {a : α} {b : β} (ha : a ∈ l) (hab : f a = some b) :
    ((l.filterMap f).head?).isSome = true := by
  cases hfm : l.filterMap f with
  | nil =>
    have := List.filterMap_eq_nil_iff.mp hfm a ha
    rw [hab] at this
    cases this
  | cons x xs => rfl

theorem zip_pad (a b : Nat) (mid : List Nat) (m : ℚ) (c : List (Option ℚ))
    (hlen : mid.length = c.length) :
    (a :: (mid ++ [b])).zip (some m :: (c ++ [some m])) =
      (a, some m) :: ((mid.zip c) ++ [(b, some m)]) := by
  rw [List.zip_cons_cons, List.zip_append hlen]
  rfl

theorem interpAt_isSome {xs : List Nat} {pts : List (Nat × Option ℚ)} {i : Nat}
    (hb : (((pts.take i).filterMap
      (fun p => p.2.map (fun q => (p.1, q)))).getLast?).isSome = true) :
    (interpAt xs pts i).isSome = true := by
  unfold interpAt
  obtain ⟨pa, hpa⟩ := Option.isSome_iff_exists.mp hb
  rw [hpa]
  cases haft : ((pts.drop (i + 1)).filterMap
      (fun p => p.2.map (fun q => (p.1, q)))).head? with
  | none => rfl
  | some pb => rfl

theorem interpolateValues_pad_all (a b : Nat) (mid : List Nat) (m : ℚ)
    (c : List (Option ℚ)) (hlen : mid.length = c.length) :
    ∀ v ∈ interpolateValues (a :: (mid ++ [b])) (some m :: (c ++ [some m])),
      v.isSome = true := by
  intro v hv
  unfold interpolateValues at hv
  simp only [List.mem_map, List.mem_range] at hv
  obtain ⟨i, hi, rfl⟩ := hv
  cases hgd : (some m :: (c ++ [some m])).getD i none with
  | some q => rfl
  | none =>
    show (interpAt (a :: (mid ++ [b]))
      ((a :: (mid ++ [b])).zip (some m :: (c ++ [some m]))) i).isSome = true
    apply interpAt_isSome
    have hi0 : i ≠ 0 := by
      intro h0
      rw [h0, List.getD_cons_zero] at hgd
      cases hgd
    obtain ⟨k, rfl⟩ : ∃ k, i = k + 1 := ⟨i - 1, by omega⟩
    rw [zip_pad a b mid m c hlen, List.take_succ_cons]
    exact getLast?_isSome_of_head _ _ (a, some m) (a, m) rfl

theorem scipyFillCol_pad_ok (kind : Interp1dKind) (a b : Nat) (mid : List Nat)
    (m : ℚ) (c : List (Option ℚ)) (hlen : mid.length = c.length)
    (hbound : ∀ x ∈ mid, a ≤ x ∧ x ≤ b) (hab : a ≤ b) :
    ∃ out, scipyFillCol kind (a :: (mid ++ [b])) (some m :: (c ++ [some m])) =
      .ok out ∧ ∀ v ∈ out, v.isSome = true := by
  have hvp : validPts (a :: (mid ++ [b])) (some m :: (c ++ [some m])) =
      (a, m) :: ((mid.zip c).filterMap
        (fun p => p.2.map (fun q => (p.1, q))) ++ [(b, m)]) := by
    unfold validPts
    rw [zip_pad a b mid m c hlen]
    simp [List.filterMap_cons, List.filterMap_append]
  unfold scipyFillCol
  rw [hvp]
  rw [if_neg (by simp)]
  rw [if_pos ?hcond]
  case hcond =>
    have hgl : ((a, m) :: ((mid.zip c).filterMap
        (fun p => p.2.map (fun q => (p.1, q))) ++ [(b, m)])).getLastD (0, 0) =
        (b, m) := by
      rw [List.getLastD_eq_getLast?]
      rw [show (a, m) :: ((mid.zip c).filterMap
          (fun p => p.2.map (fun q => (p.1, q))) ++ [(b, m)]) =
        ((a, m) :: (mid.zip c).filterMap
          (fun p => p.2.map (fun q => (p.1, q)))) ++ [(b, m)] from rfl]
      rw [List.getLast?_concat]
      rfl
    rw [hgl]
    rw [List.all_eq_true]
    intro p hp
    have hpz := (List.mem_filter.mp hp).1
    rw [zip_pad a b mid m c hlen] at hpz
    rcases List.mem_cons.mp hpz with rfl | hpz2
    · simp [hab]
    · rcases List.mem_append.mp hpz2 with hmid | hlast
      · obtain ⟨h1, _⟩ := List.of_mem_zip hmid
        have hb2 := hbound p.1 h1
        simp only [Bool.and_eq_true, decide_eq_true_eq]
        exact ⟨hb2.1, hb2.2⟩
      · simp only [List.mem_singleton] at hlast
        subst hlast
        simp [hab]
  refine ⟨_, rfl, ?_⟩
  intro v hv
  simp only [List.mem_map] at hv
  obtain ⟨p, _, rfl⟩ := hv
  cases hc2 : p.2 with
  | some q => rfl
  | none => rfl

theorem head_le_of_sorted {l : List Nat}
    (hs : List.Pairwise (· < ·) l) : ∀ x ∈ l, l.getD 0 0 ≤ x := by
  cases l with
  | nil => intro x hx; simp at hx
  | cons a tl =>
    intro x hx
    obtain ⟨ha, _⟩ := List.pairwise_cons.mp hs
    rcases List.mem_cons.mp hx with rfl | hx2
    · simp
    · rw [List.getD_cons_zero]
      exact le_of_lt (ha x hx2)

theorem le_getLastD_of_sorted : ∀ {l : List Nat},
    List.Pairwise (· < ·) l → ∀ x ∈ l, x ≤ l.getLastD 0 := by
  intro l
  induction l with
  | nil => intro _ x hx; simp at hx
  | cons a tl ih =>
    intro hp x hx
    obtain ⟨ha, htl⟩ := List.pairwise_cons.mp hp
    cases tl with
    | nil =>
      rcases List.mem_cons.mp hx with rfl | hx2
      · simp [List.getLastD]
      · simp at hx2
    | cons b tl2 =>
      have heq : ((a :: b :: tl2).getLastD 0) = ((b :: tl2).getLastD 0) := by
        simp [List.getLastD_eq_getLast?, List.getLast?_cons_cons]
      rw [heq]
      rcases List.mem_cons.mp hx with rfl | hx2
      · have hb := ih htl b (by simp)
        have hab : x < b := ha b (by simp)
        omega
      · exact ih htl x hx2

theorem pad_map_eq (cols : List (List (Option ℚ))) :
    (cols.zip (cols.map colMean)).map (fun p => p.2 :: p.1 ++ [p.2]) =
      cols.map (fun c => colMean c :: c ++ [colMean c]) := by
  rw [zip_map_map]

theorem applyMethod_pad_all (method : String) (a b : Nat) (mid : List Nat)
    (cols : List (List (Option ℚ)))
    (hlen : ∀ c ∈ cols, c.length = mid.length)
    (hcols : ∀ c ∈ cols, presentVals c ≠ [])
    (hbound : ∀ x ∈ mid, a ≤ x ∧ x ≤ b) (hab : a ≤ b)
    (hm : method ∈ coveredMethods ∨ (parseFloat method).isSome = true) :
    ∃ newCols, applyMethod method (a :: (mid ++ [b]))
        ((cols.zip (cols.map colMean)).map (fun p => p.2 :: p.1 ++ [p.2])) =
      .ok newCols ∧ ∀ col ∈ newCols, ∀ v ∈ col, v.isSome = true := by
  rw [pad_map_eq]
  have hmem_all : ∀ (F : List (Option ℚ) → List (Option ℚ)),
      (∀ (m : ℚ) (cc : List (Option ℚ)), cc.length = mid.length →
        presentVals cc ≠ [] →
        ∀ v ∈ F (some m :: (cc ++ [some m])), v.isSome = true) →
      ∀ col ∈ (cols.map (fun c => colMean c :: c ++ [colMean c])).map F,
        ∀ v ∈ col, v.isSome = true := by
    intro F hF col hcol v hv
    simp only [List.mem_map] at hcol
    obtain ⟨pc, hpc, rfl⟩ := hcol
    obtain ⟨c, hc, rfl⟩ := hpc
    obtain ⟨m, hm2⟩ := colMean_isSome_of (hcols c hc)
    rw [hm2] at hv
    exact hF m c (hlen c hc) (hcols c hc) v hv
  have hstat : ∀ (stat : List (Option ℚ) → Option ℚ),
      (∀ cc : List (Option ℚ), presentVals cc ≠ [] → ∃ s, stat cc = some s) →
      ∀ col ∈ (cols.map (fun c => colMean c :: c ++ [colMean c])).map
        (fun c => fillnaOpt (stat c) c), ∀ v ∈ col, v.isSome = true := by
    intro stat hsome
    apply hmem_all
    intro m cc _ _ v hv
    obtain ⟨s, hs⟩ := hsome (some m :: (cc ++ [some m])) (presentVals_pad_ne m cc)
    rw [hs] at hv
    exact fillnaOpt_all s _ v hv
  have hscipy : ∀ kind : Interp1dKind,
      ∃ newCols, mapE (scipyFillCol kind (a :: (mid ++ [b])))
          (cols.map (fun c => colMean c :: c ++ [colMean c])) = .ok newCols ∧
        ∀ col ∈ newCols, ∀ v ∈ col, v.isSome = true := by
    intro kind
    apply mapE_ok_exists
    intro pc hpc
    simp only [List.mem_map] at hpc
    obtain ⟨c, hc, rfl⟩ := hpc
    obtain ⟨m, hm2⟩ := colMean_isSome_of (hcols c hc)
    rw [hm2]
    obtain ⟨out, hout, hallout⟩ :=
      scipyFillCol_pad_ok kind a b mid m c (hlen c hc).symm hbound hab
    exact ⟨out, hout, hallout⟩
  rcases hm with hmem | hnum
  · simp only [coveredMethods, List.mem_cons, List.not_mem_nil, or_false] at hmem
    rcases hmem with rfl | rfl | rfl | rfl | rfl | rfl | rfl | rfl | rfl | rfl
    · have heq : applyMethod "ffill" (a :: (mid ++ [b]))
          (cols.map (fun c => colMean c :: c ++ [colMean c])) =
          .ok ((cols.map (fun c => colMean c :: c ++ [colMean c])).map ffillCol) := by
        unfold applyMethod
        rw [if_pos rfl]
      exact ⟨_, heq, hmem_all ffillCol (fun m cc _ _ => ffillCol_pad_all m cc)⟩
    · have heq : applyMethod "bfill" (a :: (mid ++ [b]))
          (cols.map (fun c => colMean c :: c ++ [colMean c])) =
          .ok ((cols.map (fun c => colMean c :: c ++ [colMean c])).map bfillCol) := by
        unfold applyMethod
        rw [if_neg (by decide), if_pos rfl]
      exact ⟨_, heq, hmem_all bfillCol (fun m cc _ _ => bfillCol_pad_all m cc)⟩
    · have heq : applyMethod "linear" (a :: (mid ++ [b]))
          (cols.map (fun c => colMean c :: c ++ [colMean c])) =
          .ok ((cols.map (fun c => colMean c :: c ++ [colMean c])).map
            (interpolateValues (a :: (mid ++ [b])))) := by
        unfold applyMethod
        rw [if_neg (by decide), if_neg (by decide), if_pos rfl]
      exact ⟨_, heq, hmem_all (interpolateValues (a :: (mid ++ [b])))
        (fun m cc hl2 _ => interpolateValues_pad_all a b mid m cc hl2.symm)⟩
    · obtain ⟨nc, hnc, hall⟩ := hscipy .nearest
      refine ⟨nc, ?_, hall⟩
      unfold applyMethod
      rw [if_neg (by decide), if_neg (by decide), if_neg (by decide),
        if_pos rfl]
      exact hnc
    · obtain ⟨nc, hnc, hall⟩ := hscipy .zero
      refine ⟨nc, ?_, hall⟩
      unfold applyMethod
      rw [if_neg (by decide), if_neg (by decide), if_neg (by decide),
        if_neg (by decide), if_pos rfl]
      exact hnc
    · obtain ⟨nc, hnc, hall⟩ := hscipy .slinear
      refine ⟨nc, ?_, hall⟩
      unfold applyMethod
      rw [if_neg (by decide), if_neg (by decide), if_neg (by decide),
        if_neg (by decide), if_neg (by decide), if_pos rfl]
      exact hnc
    · have heq : applyMethod "mean" (a :: (mid ++ [b]))
          (cols.map (fun c => colMean c :: c ++ [colMean c])) =
          .ok ((cols.map (fun c => colMean c :: c ++ [colMean c])).map
            (fun c => fillnaOpt (colMean c) c)) := by
        unfold applyMethod
        rw [if_neg (by decide), if_neg (by decide), if_neg (by decide),
          if_neg (by decide), if_neg (by decide), if_neg (by decide),
          if_neg (by decide), if_neg (by decide), if_pos rfl]
      exact ⟨_, heq, hstat colMean (fun cc h => colMean_isSome_of h)⟩
    · have heq : applyMethod "median" (a :: (mid ++ [b]))
          (cols.map (fun c => colMean c :: c ++ [colMean c])) =
          .ok ((cols.map (fun c => colMean c :: c ++ [colMean c])).map
            (fun c => fillnaOpt (colMedian c) c)) := by
        unfold applyMethod
        rw [if_neg (by decide), if_neg (by decide), if_neg (by decide),
          if_neg (by decide), if_neg (by decide), if_neg (by decide),
          if_neg (by decide), if_neg (by decide), if_neg (by decide),
          if_pos rfl]
      exact ⟨_, heq, hstat colMedian (fun cc h => colMedian_isSome_of h)⟩
    · have heq : applyMethod "max" (a :: (mid ++ [b]))
          (cols.map (fun c => colMean c :: c ++ [colMean c])) =
          .ok ((cols.map (fun c => colMean c :: c ++ [colMean c])).map
            (fun c => fillnaOpt (colMax c) c)) := by
        unfold applyMethod
        rw [if_neg (by decide), if_neg (by decide), if_neg (by decide),
          if_neg (by decide), if_neg (by decide), if_neg (by decide),
          if_neg (by decide), if_neg (by decide), if_neg (by decide),
          if_neg (by decide), if_pos rfl]
      exact ⟨_, heq, hstat colMax (fun cc h => colMax_isSome_of h)⟩
    · have heq : applyMethod "min" (a :: (mid ++ [b]))
          (cols.map (fun c => colMean c :: c ++ [colMean c])) =
          .ok ((cols.map (fun c => colMean c :: c ++ [colMean c])).map
            (fun c => fillnaOpt (colMin c) c)) := by
        unfold applyMethod
        rw [if_neg (by decide), if_neg (by decide), if_neg (by decide),
          if_neg (by decide), if_neg (by decide), if_neg (by decide),
          if_neg (by decide), if_neg (by decide), if_neg (by decide),
          if_neg (by decide), if_neg (by decide), if_pos rfl]
      exact ⟨_, heq, hstat colMin (fun cc h => colMin_isSome_of h)⟩
  · have hkey : ∀ s ∈ (["ffill", "bfill", "linear", "nearest", "zero",
        "slinear", "quadratic", "cubic", "mean", "median", "max", "min"] :
          List String), method ≠ s := by
      intro s hs heq
      rw [heq] at hnum
      fin_cases hs <;> exact absurd hnum (by decide)
    obtain ⟨v, hv⟩ := Option.isSome_iff_exists.mp hnum
    have heq : applyMethod method (a :: (mid ++ [b]))
        (cols.map (fun c => colMean c :: c ++ [colMean c])) =
        .ok ((cols.map (fun c => colMean c :: c ++ [colMean c])).map
          (fun c => fillnaOpt (some v) c)) := by
      unfold applyMethod
      rw [if_neg (hkey _ (by decide)), if_neg (hkey _ (by decide)),
        if_neg (hkey _ (by decide)), if_neg (hkey _ (by decide)),
        if_neg (hkey _ (by decide)), if_neg (hkey _ (by decide)),
        if_neg (hkey _ (by decide)), if_neg (hkey _ (by decide)),
        if_neg (hkey _ (by decide)), if_neg (hkey _ (by decide)),
        if_neg (hkey _ (by decide)), if_neg (hkey _ (by decide)), hv]
    refine ⟨_, heq, ?_⟩
    apply hmem_all
    intro m cc _ _
    exact fillnaOpt_all v _

/-- Claim C1 amended: for every well-formed table with at least two rows,
regularly spaced timestamps and at least one present value in every
column, fill with any covered recognized method or numeric string pads
one synthetic mean row at each end, applies the method, trims the pads,
and returns a table with exactly the original timestamps and columns and
no missing values. -/
theorem fill_complete (t : Table) (method : String)
    (hwf : TableWF t) (h2 : 2 ≤ t.index.length)
    (hcols : ∀ c ∈ t.cols, presentVals c ≠ [])
    (hreg : regularSpacing t.index = true)
    (hm : method ∈ coveredMethods ∨ (parseFloat method).isSome = true) :
    ∃ t', fill t method = .ok t' ∧ t'.index = t.index ∧ t'.names = t.names ∧
      ∀ c ∈ t'.cols, ∀ v ∈ c, v.isSome = true := by
  obtain ⟨hwf1, hwf2, hsort⟩ := hwf
  have hne : t.index ≠ [] := by
    intro hcon
    rw [hcon] at h2
    simp at h2
  have hhead : t.index.getD 0 0 ∈ t.index := by
    cases hx : t.index with
    | nil => exact absurd hx hne
    | cons x xs => simp
  have hbound : ∀ x ∈ t.index,
      t.index.getD 0 0 - (t.index.getD 1 0 - t.index.getD 0 0) ≤ x ∧
      x ≤ t.index.getLastD 0 + (t.index.getD 1 0 - t.index.getD 0 0) := by
    intro x hx
    constructor
    · calc t.index.getD 0 0 - (t.index.getD 1 0 - t.index.getD 0 0)
          ≤ t.index.getD 0 0 := Nat.sub_le _ _
        _ ≤ x := head_le_of_sorted hsort x hx
    · calc x ≤ t.index.getLastD 0 := le_getLastD_of_sorted hsort x hx
        _ ≤ t.index.getLastD 0 + (t.index.getD 1 0 - t.index.getD 0 0) :=
          Nat.le_add_right _ _
  have hab : t.index.getD 0 0 - (t.index.getD 1 0 - t.index.getD 0 0) ≤
      t.index.getLastD 0 + (t.index.getD 1 0 - t.index.getD 0 0) := by
    have h1 := (hbound _ hhead).1
    have h2b := (hbound _ hhead).2
    omega
  obtain ⟨newCols, hnew, hall⟩ := applyMethod_pad_all method
    (t.index.getD 0 0 - (t.index.getD 1 0 - t.index.getD 0 0))
    (t.index.getLastD 0 + (t.index.getD 1 0 - t.index.getD 0 0))
    t.index t.cols hwf2 hcols hbound hab hm
  unfold fill
  rw [if_pos hreg, if_neg (by omega)]
  unfold padIndex
  rw [hnew]
  refine ⟨_, rfl, ?_, rfl, ?_⟩
  · exact trimList_pad _ _ _
  · intro c hc v hv
    simp only [List.mem_map] at hc
    obtain ⟨col, hcol, rfl⟩ := hc
    have hv2 : v ∈ (col.drop 1) := (List.dropLast_sublist (col.drop 1)).subset hv
    have hv3 : v ∈ col := List.drop_subset 1 col hv2
    exact hall col hcol v hv3

/-- Claim C1 witness: a concrete table with a gap, filled linearly,
returns all entries present over the original index. -/
theorem fill_complete_witness :
    ∃ t', fill ⟨[0, 1, 2, 3], ["a"], [[some 1, none, none, some 4]]⟩ "linear" =
        .ok t' ∧
      t'.index = ([0, 1, 2, 3] : List Nat) ∧ t'.names = ["a"] ∧
      ∀ c ∈ t'.cols, ∀ v ∈ c, v.isSome = true :=
  fill_complete _ "linear" (by decide) (by decide) (by decide) (by decide)
    (Or.inl (by decide))

/-! ### Forward fill idempotence -/

theorem fillAssemble_ok (names : List String) (ni : List Nat)
    (cs : List (List (Option ℚ))) :
    fillAssemble names ni (.ok cs) = .ok ⟨trimList ni, names, cs.map trimList⟩ :=
  rfl

theorem trim_padIndex (idx : List Nat) : trimList (padIndex idx) = idx := by
  unfold padIndex
  exact trimList_pad _ _ _

theorem ffillFrom_length (carry : Option ℚ) (l : List (Option ℚ)) :
    (ffillFrom carry l).length = l.length := by
  induction l generalizing carry with
  | nil => rfl
  | cons a tl ih =>
    cases a with
    | some q => simp [ffillFrom, ih]
    | none => simp [ffillFrom, ih]

theorem ffillFrom_all_none {l : List (Option ℚ)} (h : ∀ v ∈ l, v = none) :
    ffillFrom none l = l := by
  induction l with
  | nil => rfl
  | cons a tl ih =>
    have ha : a = none := h a (by simp)
    subst ha
    rw [show ffillFrom none (none :: tl) = none :: ffillFrom none tl from rfl,
      ih (fun v hv => h v (by simp [hv]))]

theorem ffillFrom_id_of_all_some {l : List (Option ℚ)}
    (h : ∀ v ∈ l, v.isSome = true) : ∀ carry, ffillFrom carry l = l := by
  induction l with
  | nil => intro carry; rfl
  | cons a tl ih =>
    intro carry
    cases ha : a with
    | some q =>
      rw [show ffillFrom carry (some q :: tl) =
        some q :: ffillFrom (some q) tl from rfl]
      rw [ih (fun v hv => h v (by simp [hv])) (some q)]
    | none =>
      have := h a (by simp)
      rw [ha] at this
      cases this

theorem presentVals_eq_nil_iff {c : List (Option ℚ)} :
    presentVals c = [] ↔ ∀ v ∈ c, v = none := by
  unfold presentVals
  rw [List.filterMap_eq_nil_iff]
  simp

theorem colMean_none_of {c : List (Option ℚ)} (h : presentVals c = []) :
    colMean c = none := by
  unfold colMean
  rw [h]

theorem ffillPad_of_all_none {c : List (Option ℚ)}
    (hp : presentVals c = []) : ffillPad c = c := by
  have hall := presentVals_eq_nil_iff.mp hp
  unfold ffillPad ffillCol
  rw [colMean_none_of hp]
  rw [ffillFrom_all_none (by
    intro v hv
    rcases List.mem_cons.mp hv with rfl | hv2
    · rfl
    · rcases List.mem_append.mp hv2 with hin | hone
      · exact hall v hin
      · simpa using hone)]
  exact trimList_pad _ _ _

theorem ffillPad_of_all_some {c1 : List (Option ℚ)}
    (h : ∀ v ∈ c1, v.isSome = true) (hne : presentVals c1 ≠ []) :
    ffillPad c1 = c1 := by
  obtain ⟨m1, hm1⟩ := colMean_isSome_of hne
  unfold ffillPad ffillCol
  rw [hm1]
  rw [show ffillFrom none (some m1 :: c1 ++ [some m1]) =
      some m1 :: ffillFrom (some m1) (c1 ++ [some m1]) from rfl]
  rw [ffillFrom_id_of_all_some (by
    intro v hv
    rcases List.mem_append.mp hv with hin | hone
    · exact h v hin
    · simp only [List.mem_singleton] at hone
      rw [hone]
      rfl) (some m1)]
  exact trimList_pad _ _ _

theorem ffillPad_all_some {c : List (Option ℚ)} (hp : presentVals c ≠ []) :
    ∀ v ∈ ffillPad c, v.isSome = true := by
  obtain ⟨m, hm⟩ := colMean_isSome_of hp
  intro v hv
  unfold ffillPad at hv
  rw [hm] at hv
  have hv2 : v ∈ ffillCol (some m :: c ++ [some m]) := by
    have h1 : v ∈ (ffillCol (some m :: c ++ [some m])).drop 1 :=
      (List.dropLast_sublist _).subset hv
    exact List.drop_subset 1 _ h1
  exact ffillCol_pad_all m c v hv2

theorem ffillPad_length (c : List (Option ℚ)) :
    (ffillPad c).length = c.length := by
  unfold ffillPad ffillCol trimList
  simp [ffillFrom_length]

theorem ffillPad_idem (c : List (Option ℚ)) :
    ffillPad (ffillPad c) = ffillPad c := by
  by_cases hp : presentVals c = []
  · rw [ffillPad_of_all_none hp, ffillPad_of_all_none hp]
  · have hcne : c ≠ [] := by
      intro h0
      rw [h0] at hp
      exact hp rfl
    have hne1 : ffillPad c ≠ [] := by
      intro h0
      have hl := congrArg List.length h0
      rw [ffillPad_length] at hl
      simp only [List.length_nil] at hl
      exact hcne (List.length_eq_zero.mp hl)
    have hp1 : presentVals (ffillPad c) ≠ [] := by
      obtain ⟨v, vs, hv⟩ := List.exists_cons_of_ne_nil hne1
      have hs := ffillPad_all_some hp v (by rw [hv]; simp)
      obtain ⟨q, hq⟩ := Option.isSome_iff_exists.mp hs
      rw [hv, hq]
      unfold presentVals
      simp [List.filterMap_cons]
    exact ffillPad_of_all_some (ffillPad_all_some hp) hp1

theorem fill_ffill_of_components (t1 : Table)
    (hreg1 : regularSpacing t1.index = true) (hlen1 : ¬ t1.index.length < 2)
    (hcols1 : ∀ c ∈ t1.cols, ffillPad c = c) : fill t1 "ffill" = .ok t1 := by
  unfold fill
  rw [if_pos hreg1, if_neg hlen1]
  have happ : applyMethod "ffill" (padIndex t1.index)
      ((t1.cols.zip (t1.cols.map colMean)).map (fun p => p.2 :: p.1 ++ [p.2])) =
      .ok (((t1.cols.zip (t1.cols.map colMean)).map
        (fun p => p.2 :: p.1 ++ [p.2])).map ffillCol) := by
    unfold applyMethod
    rw [if_pos rfl]
  rw [happ, fillAssemble_ok]
  have hcolsEq : ((((t1.cols.zip (t1.cols.map colMean)).map
      (fun p => p.2 :: p.1 ++ [p.2])).map ffillCol).map trimList) = t1.cols := by
    rw [pad_map_eq, List.map_map, List.map_map]
    conv_rhs => rw [← List.map_id t1.cols]
    apply List.map_congr_left
    intro c hc
    exact hcols1 c hc
  rw [hcolsEq, trim_padIndex]

/-- Claim C8: forward fill is idempotent; whenever fill with method
ffill succeeds, applying it again to the result returns the result
unchanged. -/
theorem fill_ffill_idempotent (t t1 : Table) (h : fill t "ffill" = .ok t1) :
    fill t1 "ffill" = .ok t1 := by
  unfold fill at h
  by_cases hreg : regularSpacing t.index = true
  case neg => rw [if_neg hreg] at h; simp at h
  rw [if_pos hreg] at h
  by_cases hlen : t.index.length < 2
  case pos => rw [if_pos hlen] at h; simp at h
  rw [if_neg hlen] at h
  have happ : applyMethod "ffill" (padIndex t.index)
      ((t.cols.zip (t.cols.map colMean)).map (fun p => p.2 :: p.1 ++ [p.2])) =
      .ok (((t.cols.zip (t.cols.map colMean)).map
        (fun p => p.2 :: p.1 ++ [p.2])).map ffillCol) := by
    unfold applyMethod
    rw [if_pos rfl]
  rw [happ, fillAssemble_ok] at h
  simp only [Except.ok.injEq] at h
  have hidx1 : t1.index = t.index := by
    rw [← h, trim_padIndex]
  have hcols1 : t1.cols = t.cols.map ffillPad := by
    rw [← h]
    show ((((t.cols.zip (t.cols.map colMean)).map
      (fun p => p.2 :: p.1 ++ [p.2])).map ffillCol).map trimList) =
        t.cols.map ffillPad
    rw [pad_map_eq, List.map_map, List.map_map]
    rfl
  apply fill_ffill_of_components
  · rw [hidx1]
    exact hreg
  · rw [hidx1]
    exact hlen
  · intro c hc
    rw [hcols1] at hc
    simp only [List.mem_map] at hc
    obtain ⟨c0, _, rfl⟩ := hc
    exact ffillPad_idem c0

/-- Claim C8 witness: a concrete successful forward fill is a fixed
point of a second forward fill. -/
theorem fill_ffill_idempotent_witness :
    fill ⟨[0, 1], ["a"], [[some 1, some 1]]⟩ "ffill" =
      .ok ⟨[0, 1], ["a"], [[some 1, some 1]]⟩ :=
  fill_ffill_idempotent ⟨[0, 1], ["a"], [[some 1, none]]⟩ _
    (by with_unfolding_all rfl)

/-! ### The label join on pairwise distinct dates

On a date list without duplicates every left label matches exactly one
right row, so each join is the identity on the index and appends the new
column unchanged: the assembled frame is the positional table.  Every
reader theorem below confines itself to that region. -/

theorem flatMap_eq_map {α β : Type} (l : List α) (f : α → List β) (g : α → β)
    (h : ∀ x ∈ l, f x = [g x]) : l.flatMap f = l.map g := by
  induction l with
  | nil => rfl
  | cons a tl ih =>
    rw [List.flatMap_cons, h a (by simp), ih (fun x hx => h x (by simp [hx]))]
    rfl

theorem flatMap_map_list {α β γ : Type} (l : List α) (h : α → β)
    (g : β → List γ) : (l.map h).flatMap g = l.flatMap (fun x => g (h x)) := by
  induction l with
  | nil => rfl
  | cons a tl ih => rw [List.map_cons, List.flatMap_cons, List.flatMap_cons, ih]

theorem range_filter_single (p : Nat → Bool) :
    ∀ n i, i < n → (∀ j, j < n → (p j = true ↔ j = i)) →
      (List.range n).filter p = [i] := by
  intro n
  induction n with
  | zero => intro i hi _; omega
  | succ m ih =>
    intro i hi hp
    have hrs : List.range (m + 1) = List.range m ++ [m] := by
      rw [List.range_succ]
    rw [hrs, List.filter_append]
    by_cases hc : i = m
    · subst hc
      have h0 : (List.range i).filter p = [] := by
        apply List.filter_eq_nil_iff.mpr
        intro j hj
        simp only [List.mem_range] at hj
        intro hpj
        exact absurd ((hp j (by omega)).mp hpj) (by omega)
      have hpi : p i = true := (hp i (by omega)).mpr rfl
      have h1 : [i].filter p = [i] := by
        simp [List.filter_cons, hpi]
      rw [h0, h1]
      rfl
    · have h0 : (List.range m).filter p = [i] :=
        ih i (by omega) (fun j hj => hp j (by omega))
      have hnm : ¬ p m = true := fun hpm => hc ((hp m (by omega)).mp hpm).symm
      have h1 : [m].filter p = [] := by
        simp [List.filter_cons, hnm]
      rw [h0, h1, List.append_nil]

theorem getD_nodup_inj {l : List Nat} (hnd : l.Nodup) {i j : Nat}
    (hi : i < l.length) (hj : j < l.length) (heq : l.getD i 0 = l.getD j 0) :
    i = j := by
  rw [List.getD_eq_getElem l 0 hi, List.getD_eq_getElem l 0 hj] at heq
  have h2 : l.get ⟨i, hi⟩ = l.get ⟨j, hj⟩ := by
    simpa using heq
  have h3 := (List.Nodup.get_inj_iff hnd).mp h2
  simpa using h3

theorem matchIdx_nodup {dates : List Nat} (hnd : dates.Nodup) {i : Nat}
    (hi : i < dates.length) : matchIdx dates (dates.getD i 0) = [i] := by
  unfold matchIdx
  apply range_filter_single _ dates.length i hi
  intro j hj
  constructor
  · intro hpj
    simp only [decide_eq_true_eq] at hpj
    exact getD_nodup_inj hnd hj hi hpj
  · intro hj2
    subst hj2
    simp

theorem joinPos_nodup {dates : List Nat} (hnd : dates.Nodup) {i : Nat}
    (hi : i < dates.length) : joinPos dates (dates.getD i 0) = [some i] := by
  unfold joinPos
  rw [matchIdx_nodup hnd hi]
  rfl

theorem joinPos_of_mem {dates : List Nat} (hnd : dates.Nodup) {d : Nat}
    (hd : d ∈ dates) : ∃ i, i < dates.length ∧ dates.getD i 0 = d ∧
      joinPos dates d = [some i] := by
  obtain ⟨i, hi, hgi⟩ := List.mem_iff_getElem.mp hd
  have hgd : dates.getD i 0 = d := by
    rw [List.getD_eq_getElem dates 0 hi, hgi]
  refine ⟨i, hi, hgd, ?_⟩
  rw [← hgd]
  exact joinPos_nodup hnd hi

theorem joinCol_nodup {dates : List Nat} (hnd : dates.Nodup)
    (cols : List (List (Option ℚ))) (vals : List (Option ℚ))
    (hcols : ∀ c ∈ cols, c.length = dates.length)
    (hv : vals.length = dates.length) :
    joinCol dates dates cols vals = (dates, cols ++ [vals]) := by
  unfold joinCol
  have hone : ∀ d ∈ dates, (joinPos dates d).map
      (fun _ => d) = [d] := by
    intro d hd
    obtain ⟨i, hi, hgd, hjp⟩ := joinPos_of_mem hnd hd
    rw [hjp]
    rfl
  have hidx : dates.flatMap (fun d => (joinPos dates d).map (fun _ => d)) =
      dates := by
    rw [flatMap_eq_map dates _ (fun d => d) hone]
    exact List.map_id dates
  have hcolsmap : cols.map (fun c => (dates.zip c).flatMap
      (fun p => (joinPos dates p.1).map (fun _ => p.2))) = cols := by
    conv_rhs => rw [← List.map_id cols]
    apply List.map_congr_left
    intro c hc
    have htwo : ∀ p ∈ dates.zip c, (joinPos dates p.1).map
        (fun _ => p.2) = [p.2] := by
      intro p hp
      obtain ⟨i, hi, hgd, hjp⟩ := joinPos_of_mem hnd (List.of_mem_zip hp).1
      rw [hjp]
      rfl
    rw [flatMap_eq_map _ _ (fun p => p.2) htwo]
    exact List.map_snd_zip dates c (le_of_eq (hcols c hc))
  have hnew : dates.flatMap (fun d => (joinPos dates d).map
      (fun jq => jq.bind (fun j => vals.getD j none))) = vals := by
    have hrr : dates.flatMap (fun d => (joinPos dates d).map
        (fun jq => jq.bind (fun j => vals.getD j none))) =
        ((List.range dates.length).map (fun i => dates.getD i 0)).flatMap
          (fun d => (joinPos dates d).map
            (fun jq => jq.bind (fun j => vals.getD j none))) := by
      rw [map_range_getD]
    have hthree : ∀ i ∈ List.range dates.length,
        (joinPos dates (dates.getD i 0)).map
          (fun jq => jq.bind (fun j => vals.getD j none)) =
        [vals.getD i none] := by
      intro i hi
      simp only [List.mem_range] at hi
      rw [joinPos_nodup hnd hi]
      rfl
    rw [hrr, flatMap_map_list,
      flatMap_eq_map _ _ (fun i => vals.getD i none) hthree, ← hv]
    exact map_range_getD vals none
  rw [hidx, hcolsmap, hnew]

theorem foldl_joinCol_nodup {dates : List Nat} (hnd : dates.Nodup)
    (vs : List (List (Option ℚ))) :
    ∀ acc, (∀ v ∈ vs, v.length = dates.length) →
      (∀ c ∈ acc, c.length = dates.length) →
      vs.foldl (fun st v2 => joinCol dates st.1 st.2 v2) (dates, acc) =
        (dates, acc ++ vs) := by
  induction vs with
  | nil =>
    intro acc _ _
    simp
  | cons v rest ih =>
    intro acc hvs hacc
    have hstep : (v :: rest).foldl
        (fun st v2 => joinCol dates st.1 st.2 v2) (dates, acc) =
        rest.foldl (fun st v2 => joinCol dates st.1 st.2 v2)
          (joinCol dates dates acc v) := rfl
    rw [hstep, joinCol_nodup hnd acc v hacc (hvs v (by simp))]
    have hacc2 : ∀ c ∈ acc ++ [v], c.length = dates.length := by
      intro c hc
      rcases List.mem_append.mp hc with h1 | h1
      · exact hacc c h1
      · rw [List.mem_singleton.mp h1]
        exact hvs v (by simp)
    rw [ih (acc ++ [v]) (fun x hx => hvs x (by simp [hx])) hacc2]
    simp

theorem joinAll_nodup {dates : List Nat} (hnd : dates.Nodup)
    (vs : List (List (Option ℚ)))
    (hvs : ∀ v ∈ vs, v.length = dates.length) :
    joinAll dates vs = (dates, vs) := by
  cases vs with
  | nil => rfl
  | cons v rest =>
    have h0 : joinAll dates (v :: rest) =
        rest.foldl (fun st v2 => joinCol dates st.1 st.2 v2) (dates, [v]) := rfl
    have hv1 : ∀ c ∈ [v], c.length = dates.length := by
      intro c hc
      rw [List.mem_singleton.mp hc]
      exact hvs v (by simp)
    rw [h0,
      foldl_joinCol_nodup hnd rest [v] (fun x hx => hvs x (by simp [hx])) hv1]
    rfl

/-- On pairwise distinct dates the assembled frame is the positional
table: each join matches every label exactly once. -/
theorem buildTable_pos (hdr : List String) (rows : List (Nat × List (Option ℚ)))
    (hne : rows.isEmpty = false)
    (hnames : listNodup (hdr.drop 1) = true)
    (h2 : 2 ≤ hdr.length)
    (hnd : (rows.map (fun r => r.1)).Nodup) :
    buildTable hdr rows = .ok ⟨rows.map (fun r => r.1), hdr.drop 1,
      (List.range (hdr.length - 1)).map
        (fun j => rows.map (fun r => r.2.getD j none))⟩ := by
  unfold buildTable
  rw [hne]
  rw [if_neg (by decide : ¬ false = true)]
  rw [hnames]
  rw [if_neg (by decide : ¬ (!true) = true)]
  rw [if_neg (by omega : ¬ hdr.length < 2)]
  have hcv : ∀ v ∈ (List.range (hdr.length - 1)).map
      (fun j => rows.map (fun r => r.2.getD j none)),
      v.length = (rows.map (fun r => r.1)).length := by
    intro v hv
    simp only [List.mem_map] at hv
    obtain ⟨j, _, hvj⟩ := hv
    rw [← hvj]
    simp
  rw [joinAll_nodup hnd _ hcv]

/-! ### Claim theorems: silent missing values on unparseable fields -/

theorem withRows_ok (hdr : List String) (rows : List (Nat × List (Option ℚ))) :
    withRows hdr (.ok rows) = buildTable hdr rows := rfl

theorem getD_map_parseFloat (l : List String) (j : Nat) :
    ((l.drop 1).map parseFloat).getD j none = parseFloat (l.getD (j + 1) "") := by
  rw [List.getD_eq_getElem?_getD, List.getD_eq_getElem?_getD,
    List.getElem?_map, List.getElem?_drop]
  have hidx : (1 : Nat) + j = j + 1 := Nat.add_comm 1 j
  rw [hidx]
  cases h : l[j + 1]? with
  | none => rfl
  | some s => rfl

/-- The reading loop accepts any line whose field count matches and
whose date parses, and turns each remaining field into parseFloat of
that field. -/
theorem parseLine_ok (n : Nat) (l : List String) (d : Nat)
    (hlen : l.length = n) (hd : pyParseDate (l.headD "") = some d) :
    parseLine n l = .ok (d, (l.drop 1).map parseFloat) := by
  unfold parseLine
  rw [if_neg (by simp [hlen]), hd]

/-- Claim C10: for raw input whose rows all have the right field count,
a parsable date and pairwise distinct dates, under a header naming at
least one distinct value column, ingestion succeeds, and every cell is
the float parse of its field, which is the missing sentinel exactly when
the field is not parseable as a float, blank or not; no value field ever
raises.  The distinct-date hypothesis confines the statement to inputs
where the label join of the assembly is the identity, the region where
every pandas version behaves alike. -/
theorem read_iso_ts_bad_value (header : List String)
    (dataLines : List (List String))
    (hne : dataLines ≠ [])
    (hlen : ∀ l ∈ dataLines, l.length = header.length)
    (hdate : ∀ l ∈ dataLines, (pyParseDate (l.headD "")).isSome = true)
    (hnodup : listNodup ((header.map pyStrip).drop 1) = true)
    (hhdr2 : 2 ≤ header.length)
    (hdnd : (dataLines.map
      (fun l => (pyParseDate (l.headD "")).getD 0)).Nodup) :
    ∃ t, read_iso_ts (header :: dataLines) = .ok t ∧
      ∀ j, j + 1 < header.length →
        t.cols.getD j [] =
          dataLines.map (fun l => parseFloat (l.getD (j + 1) "")) := by
  have hmap : mapE (parseLine ((header.map pyStrip).length)) dataLines =
      .ok (dataLines.map (fun l =>
        ((pyParseDate (l.headD "")).getD 0, (l.drop 1).map parseFloat))) := by
    apply mapE_ok_of
    intro x hx
    obtain ⟨d, hd⟩ := Option.isSome_iff_exists.mp (hdate x hx)
    rw [parseLine_ok _ _ d (by simp [hlen x hx]) hd, hd]
    rfl
  refine ⟨⟨(dataLines.map (fun l =>
      ((pyParseDate (l.headD "")).getD 0, (l.drop 1).map parseFloat))).map
        (fun r => r.1),
    (header.map pyStrip).drop 1,
    (List.range ((header.map pyStrip).length - 1)).map
      (fun j => (dataLines.map (fun l =>
        ((pyParseDate (l.headD "")).getD 0, (l.drop 1).map parseFloat))).map
          (fun r => r.2.getD j none))⟩, ?_, ?_⟩
  · have h1 : read_iso_ts (header :: dataLines) =
        withRows (header.map pyStrip)
          (mapE (parseLine ((header.map pyStrip).length)) dataLines) := rfl
    rw [h1, hmap, withRows_ok]
    have hrows : (dataLines.map (fun l =>
        ((pyParseDate (l.headD "")).getD 0,
          (l.drop 1).map parseFloat))).isEmpty = false := by
      cases hd : dataLines with
      | nil => exact absurd hd hne
      | cons a tl => rfl
    have h2 : 2 ≤ (header.map pyStrip).length := by
      simpa using hhdr2
    have hfst : (dataLines.map (fun l =>
        ((pyParseDate (l.headD "")).getD 0,
          (l.drop 1).map parseFloat))).map (fun r => r.1) =
        dataLines.map (fun l => (pyParseDate (l.headD "")).getD 0) := by
      rw [List.map_map]
      rfl
    have hndr : ((dataLines.map (fun l =>
        ((pyParseDate (l.headD "")).getD 0,
          (l.drop 1).map parseFloat))).map (fun r => r.1)).Nodup := by
      rw [hfst]
      exact hdnd
    rw [buildTable_pos _ _ hrows hnodup h2 hndr]
  · intro j hj
    have hjlt : j < (header.map pyStrip).length - 1 := by
      simp only [List.length_map]
      omega
    simp only
    rw [getD_map_range hjlt]
    simp only [List.map_map]
    apply List.map_congr_left
    intro l _
    exact getD_map_parseFloat l j

/-! ### Emission and parsing round trip lemmas -/

theorem data_append (a b : String) : (a ++ b).data = a.data ++ b.data := by
  cases a
  cases b
  rfl

theorem head?_not_space_of_all {l : List Char}
    (h : ∀ c ∈ l, isSpaceChar c = false) :
    ∀ c, l.head? = some c → isSpaceChar c = false := by
  intro c hc
  cases l with
  | nil => simp at hc
  | cons a tl =>
    simp only [List.head?_cons, Option.some.injEq] at hc
    exact hc ▸ h a (by simp)

theorem getLast?_not_space_of_all {l : List Char}
    (h : ∀ c ∈ l, isSpaceChar c = false) :
    ∀ c, l.getLast? = some c → isSpaceChar c = false := by
  intro c hc
  obtain ⟨hne, heq⟩ := List.mem_getLast?_eq_getLast hc
  exact heq ▸ h _ (List.getLast_mem hne)

/-- The emitted timestamp field, the decimal text plus the print
separator space, parses back to the timestamp. -/
theorem pyParseDate_emit (n : Nat) : pyParseDate (natToStr n ++ " ") = some n := by
  unfold pyParseDate natToStr
  have hdata : (String.mk (natChars n) ++ " ").data = natChars n ++ [' '] := by
    rw [data_append]
  rw [hdata, stripChars_append_space
    (head?_not_space_of_all (natChars_not_space n))
    (getLast?_not_space_of_all (natChars_not_space n))]
  obtain ⟨c, r, hc⟩ := List.exists_cons_of_ne_nil (natChars_ne_nil n)
  rw [hc]
  show (if (c :: r).all isDigitChar = true then some (valDigits (c :: r))
    else none) = some n
  rw [if_pos (by rw [← hc]; simpa using natChars_all_digit n)]
  rw [← hc, valDigits_natChars]

theorem parseFloat_space (x : String) : parseFloat (" " ++ x) = parseFloat x := by
  unfold parseFloat
  have hdata : ((" " : String) ++ x).data = ' ' :: x.data := by
    rw [data_append]
    rfl
  rw [hdata, stripChars_cons_space]

theorem parseFloat_isfinite {v : Option ℚ}
    (hdec : ∀ q, v = some q → isDecimalRat q = true) :
    parseFloat (" " ++ isfiniteStr v) = v := by
  cases v with
  | none => with_unfolding_all rfl
  | some q =>
    show parseFloat (" " ++ floatToStr q) = some q
    rw [parseFloat_space]
    exact parseFloat_floatToStr (hdec q rfl)

theorem parseFloat_isfinite2 {v : Option ℚ}
    (hdec : ∀ q, v = some q → isDecimalRat q = true) :
    parseFloat ("  " ++ isfiniteStr v) = v := by
  have h : ("  " : String) ++ isfiniteStr v = " " ++ (" " ++ isfiniteStr v) := by
    cases hs : isfiniteStr v
    rfl
  rw [h, parseFloat_space, parseFloat_isfinite hdec]

theorem emitRow_drop_parse (ts : Nat) (v : Option ℚ) (vs : List (Option ℚ))
    (hdec : ∀ x ∈ v :: vs, ∀ q, x = some q → isDecimalRat q = true) :
    ((emitRow ts (v :: vs)).drop 1).map parseFloat = v :: vs := by
  unfold emitRow
  simp only [List.drop_succ_cons, List.drop_zero, List.map_cons, List.map_map]
  rw [parseFloat_isfinite2 (hdec v (by simp))]
  congr 1
  conv_rhs => rw [← List.map_id vs]
  apply List.map_congr_left
  intro x hx
  exact parseFloat_isfinite (hdec x (by simp [hx]))

theorem emitRow_length (ts : Nat) (v : Option ℚ) (vs : List (Option ℚ)) :
    (emitRow ts (v :: vs)).length = vs.length + 2 := by
  unfold emitRow
  simp

theorem emitRow_headD (ts : Nat) (cells : List (Option ℚ)) :
    (emitRow ts cells).headD "" = natToStr ts ++ " " := by
  unfold emitRow
  rfl

theorem map_pyStrip_emitHeader (c : String) (cs : List String)
    (hnam : ∀ s ∈ c :: cs, nameOK s = true) :
    (emitHeader (c :: cs)).map pyStrip = "Datetime" :: c :: cs := by
  have hstrip : ∀ s, nameOK s = true → pyStrip (" " ++ s) = s := by
    intro s hs
    simp only [nameOK, Bool.and_eq_true, decide_eq_true_eq] at hs
    unfold pyStrip
    have hdata : ((" " : String) ++ s).data = ' ' :: s.data := by
      rw [data_append]
      rfl
    rw [hdata, stripChars_cons_space]
    exact hs.1
  unfold emitHeader
  simp only [List.map_cons, List.map_map]
  rw [show pyStrip "Datetime" = "Datetime" from by with_unfolding_all rfl]
  rw [hstrip c (hnam c (by simp))]
  congr 2
  conv_rhs => rw [← List.map_id cs]
  apply List.map_congr_left
  intro s hs
  exact hstrip s (hnam s (by simp [hs]))

theorem mem_of_getD_eq_some {α : Type} {l : List (Option α)} {i : Nat} {q : α}
    (h : l.getD i none = some q) : some q ∈ l := by
  induction l generalizing i with
  | nil => simp [List.getD] at h
  | cons a tl ih =>
    cases i with
    | zero => rw [List.getD_cons_zero] at h; exact h ▸ List.mem_cons_self _ _
    | succ n => rw [List.getD_cons_succ] at h; exact List.mem_cons_of_mem _ (ih h)

theorem rowCells_getD (t : Table) (i j : Nat) :
    (rowCells t i).getD j none = (t.cols.getD j []).getD i none := by
  unfold rowCells
  rw [List.getD_eq_getElem?_getD, List.getElem?_map]
  rw [List.getD_eq_getElem?_getD (l := t.cols)]
  cases h : t.cols[j]? with
  | none => rfl
  | some col => simp [List.getD_eq_getElem?_getD]

/-- Claim C3 amended: for every well-formed table with at least one row
and at least one column, whose column names are distinct, comma-free and
whitespace-trimmed, and whose values are decimal rationals (the exact
values of Python floats), emitting with printiso and re-ingesting with
read_iso_ts returns the identical table, timestamps, columns, values and
missing entries included. -/
theorem printiso_read_roundtrip (t : Table)
    (hwf : TableWF t) (hrow : t.index ≠ []) (hcol : t.names ≠ [])
    (hnam : ∀ s ∈ t.names, nameOK s = true)
    (hnodup : listNodup t.names = true)
    (hdec : ∀ c ∈ t.cols, ∀ v ∈ c, ∀ q, v = some q → isDecimalRat q = true) :
    read_iso_ts (printiso t) = .ok t := by
  obtain ⟨hwf1, hwf2, hwf3⟩ := hwf
  obtain ⟨c0, cs, hnms⟩ := List.exists_cons_of_ne_nil hcol
  have hhdr : (emitHeader t.names).map pyStrip = "Datetime" :: t.names := by
    rw [hnms]
    exact map_pyStrip_emitHeader c0 cs (hnms ▸ hnam)
  have hdecRow : ∀ i, ∀ x ∈ rowCells t i, ∀ q, x = some q →
      isDecimalRat q = true := by
    intro i x hx q hq
    simp only [rowCells, List.mem_map] at hx
    obtain ⟨c, hc, rfl⟩ := hx
    exact hdec c hc (some q) (mem_of_getD_eq_some hq) q rfl
  have hrcons : ∀ i, ∃ v vs, rowCells t i = v :: vs ∧
      vs.length + 1 = t.names.length := by
    intro i
    have hlen : (rowCells t i).length = t.names.length := by
      simp [rowCells, hwf1]
    cases hcase : rowCells t i with
    | nil =>
      rw [hcase] at hlen
      rw [hnms] at hlen
      simp at hlen
    | cons v vs =>
      rw [hcase] at hlen
      exact ⟨v, vs, rfl, by simpa using hlen⟩
  have hline : ∀ x ∈ (List.range t.index.length).map
      (fun i => emitRow (t.index.getD i 0) (rowCells t i)),
      parseLine (((emitHeader t.names).map pyStrip).length) x =
        .ok ((pyParseDate (x.headD "")).getD 0, (x.drop 1).map parseFloat) := by
    intro x hx
    simp only [List.mem_map, List.mem_range] at hx
    obtain ⟨i, hi, rfl⟩ := hx
    obtain ⟨v, vs, hcc, hvslen⟩ := hrcons i
    apply parseLine_ok
    · rw [hcc, emitRow_length, hhdr]
      simp only [List.length_cons]
      omega
    · rw [emitRow_headD, pyParseDate_emit]
      rfl
  have hmap := mapE_ok_of
    (g := fun x : List String =>
      ((pyParseDate (x.headD "")).getD 0, (x.drop 1).map parseFloat))
    hline
  have h1 : read_iso_ts (printiso t) =
      withRows ((emitHeader t.names).map pyStrip)
        (mapE (parseLine (((emitHeader t.names).map pyStrip).length))
          ((List.range t.index.length).map
            (fun i => emitRow (t.index.getD i 0) (rowCells t i)))) := rfl
  rw [h1, hmap, withRows_ok]
  have hrows2 : ((List.range t.index.length).map
      (fun i => emitRow (t.index.getD i 0) (rowCells t i))).map
        (fun x => ((pyParseDate (x.headD "")).getD 0,
          (x.drop 1).map parseFloat)) =
      (List.range t.index.length).map
        (fun i => (t.index.getD i 0, rowCells t i)) := by
    rw [List.map_map]
    apply List.map_congr_left
    intro i hi
    simp only [Function.comp]
    have hfst : (pyParseDate
        ((emitRow (t.index.getD i 0) (rowCells t i)).headD "")).getD 0 =
        t.index.getD i 0 := by
      rw [emitRow_headD, pyParseDate_emit]
      rfl
    have hsnd : ((emitRow (t.index.getD i 0) (rowCells t i)).drop 1).map
        parseFloat = rowCells t i := by
      obtain ⟨v, vs, hcc, _⟩ := hrcons i
      rw [hcc]
      exact emitRow_drop_parse _ v vs (hcc ▸ hdecRow i)
    rw [hfst, hsnd]
  rw [hrows2]
  have hn : t.index.length ≠ 0 := by
    intro hcon
    exact hrow (List.length_eq_zero.mp hcon)
  have hre : ((List.range t.index.length).map
      (fun i => (t.index.getD i 0, rowCells t i))).isEmpty = false := by
    cases hr : (List.range t.index.length).map
        (fun i => (t.index.getD i 0, rowCells t i)) with
    | nil =>
      exfalso
      apply hn
      simpa using congrArg List.length hr
    | cons a l => rfl
  have hnodup2 : listNodup (((emitHeader t.names).map pyStrip).drop 1) =
      true := by
    rw [hhdr]
    simpa using hnodup
  have h2 : 2 ≤ ((emitHeader t.names).map pyStrip).length := by
    rw [hhdr, hnms]
    simp
  have hidxeq : ((List.range t.index.length).map
      (fun i => (t.index.getD i 0, rowCells t i))).map (fun r => r.1) =
      t.index := by
    rw [List.map_map]
    conv_rhs => rw [← map_range_getD t.index 0]
    apply List.map_congr_left
    intro i _
    rfl
  have hndidx : (((List.range t.index.length).map
      (fun i => (t.index.getD i 0, rowCells t i))).map
        (fun r => r.1)).Nodup := by
    rw [hidxeq]
    exact List.Pairwise.imp (fun hlt => ne_of_lt hlt) hwf3
  rw [buildTable_pos _ _ hre hnodup2 h2 hndidx]
  have hdrop : ((emitHeader t.names).map pyStrip).drop 1 = t.names := by
    rw [hhdr]
    simp
  have hlen1 : ((emitHeader t.names).map pyStrip).length - 1 =
      t.names.length := by
    rw [hhdr]
    simp
  rw [hidxeq, hdrop, hlen1]
  have hcolseq : (List.range t.names.length).map
      (fun j => ((List.range t.index.length).map
        (fun i => (t.index.getD i 0, rowCells t i))).map
          (fun r => r.2.getD j none)) = t.cols := by
    rw [← hwf1]
    conv_rhs => rw [← map_range_getD t.cols []]
    apply List.map_congr_left
    intro j hj
    simp only [List.mem_range] at hj
    rw [List.map_map]
    have hcl : (t.cols.getD j []).length = t.index.length := by
      apply hwf2
      rw [List.getD_eq_getElem _ _ hj]
      exact List.getElem_mem hj
    have step1 : (List.range t.index.length).map
        ((fun r => r.2.getD j none) ∘
          (fun i => (t.index.getD i 0, rowCells t i))) =
        (List.range t.index.length).map
          (fun i => (t.cols.getD j []).getD i none) := by
      apply List.map_congr_left
      intro i _
      exact rowCells_getD t i j
    rw [step1, ← hcl]
    exact map_range_getD _ none
  rw [hcolseq]

/-- Claim C3 witness: a concrete two-row, two-column table with a
missing entry and decimal values round trips exactly. -/
theorem printiso_read_roundtrip_witness :
    read_iso_ts (printiso ⟨[3, 7], ["a", "b"],
      [[some (mkRat 9 2), none], [some 1, some (mkRat 1 4)]]⟩) =
      .ok ⟨[3, 7], ["a", "b"],
        [[some (mkRat 9 2), none], [some 1, some (mkRat 1 4)]]⟩ :=
  printiso_read_roundtrip _ (by decide) (by decide) (by decide) (by decide)
    (by decide) (by decide)

/-! ### Claim theorems: order preservation of ingestion -/

theorem parseLine_ok_inv {n : Nat} {l : List String}
    {r : Nat × List (Option ℚ)} (h : parseLine n l = .ok r) :
    r = ((pyParseDate (l.headD "")).getD 0, (l.drop 1).map parseFloat) ∧
    l.length = n ∧ (pyParseDate (l.headD "")).isSome = true := by
  unfold parseLine at h
  split at h
  · simp at h
  · next hlen =>
    cases hd : pyParseDate (l.headD "") with
    | none => rw [hd] at h; simp at h
    | some d =>
      rw [hd] at h
      simp only [Except.ok.injEq] at h
      subst h
      refine ⟨by simp, ?_, by simp [hd]⟩
      exact Decidable.not_not.mp hlen

/-- Claim C4 amended: ingestion never sorts or de-duplicates, so the
data-model invariant is not enforced; but whenever the parsed timestamps
of the raw rows already arrive strictly increasing, the resulting index
is exactly those timestamps in input order, strictly increasing and
unique, and every column carries one value per index entry.  On such
inputs every label join of the assembly matches exactly once, so the
statement is independent of the duplicate-label join behaviour of the
underlying library. -/
theorem read_iso_ts_order (lines : List (List String)) (t : Table)
    (hsort : List.Pairwise (· < ·)
      ((lines.drop 1).map (fun l => (pyParseDate (l.headD "")).getD 0)))
    (h : read_iso_ts lines = .ok t) :
    t.index = (lines.drop 1).map (fun l => (pyParseDate (l.headD "")).getD 0) ∧
    List.Pairwise (· < ·) t.index ∧ t.index.Nodup ∧
    ∀ c ∈ t.cols, c.length = t.index.length := by
  cases lines with
  | nil => simp [read_iso_ts] at h
  | cons header dataLines =>
    have h1 : read_iso_ts (header :: dataLines) =
        withRows (header.map pyStrip)
          (mapE (parseLine ((header.map pyStrip).length)) dataLines) := rfl
    rw [h1] at h
    cases hrm : mapE (parseLine ((header.map pyStrip).length)) dataLines with
    | error e => rw [hrm] at h; simp [withRows] at h
    | ok rows =>
      rw [hrm, withRows_ok] at h
      have hidx : rows.map (fun r => r.1) =
          dataLines.map (fun l => (pyParseDate (l.headD "")).getD 0) := by
        apply mapE_ok_map (f := parseLine ((header.map pyStrip).length))
        · intro x y hxy
          rw [(parseLine_ok_inv hxy).1]
        · exact hrm
      have hsort2 : List.Pairwise (· < ·) (rows.map (fun r => r.1)) := by
        rw [hidx]
        simpa using hsort
      have hnd : (rows.map (fun r => r.1)).Nodup :=
        List.Pairwise.imp (fun hlt => ne_of_lt hlt) hsort2
      have hcv : ∀ v ∈ (List.range ((header.map pyStrip).length - 1)).map
          (fun j => rows.map (fun r => r.2.getD j none)),
          v.length = (rows.map (fun r => r.1)).length := by
        intro v hv
        simp only [List.mem_map] at hv
        obtain ⟨j, _, hvj⟩ := hv
        rw [← hvj]
        simp
      unfold buildTable at h
      split at h
      · simp at h
      · split at h
        · simp at h
        · split at h
          · simp at h
          · rw [joinAll_nodup hnd _ hcv] at h
            simp only [Except.ok.injEq] at h
            subst h
            refine ⟨by simpa using hidx, by simpa using hsort2,
              by simpa using hnd, ?_⟩
            intro c hc
            simp only [List.mem_map] at hc
            obtain ⟨j, _, rfl⟩ := hc
            simp

/-- Claim C4 witness: rows arriving in increasing order produce a table
whose index is those dates in order, strictly increasing and unique,
with all columns sharing it. -/
theorem read_iso_ts_order_witness :
    (Table.mk [1, 2] ["a"] [[some 2, some 3]]).index =
      (([["Datetime", " a"], ["1 ", "  2.0"], ["2 ", "  3.0"]] :
        List (List String)).drop 1).map
          (fun l => (pyParseDate (l.headD "")).getD 0) ∧
    List.Pairwise (· < ·) (Table.mk [1, 2] ["a"] [[some 2, some 3]]).index ∧
    (Table.mk [1, 2] ["a"] [[some 2, some 3]]).index.Nodup ∧
    ∀ c ∈ (Table.mk [1, 2] ["a"] [[some 2, some 3]]).cols,
      c.length = (Table.mk [1, 2] ["a"] [[some 2, some 3]]).index.length :=
  read_iso_ts_order _ _ (by decide) (by with_unfolding_all rfl)

/-- Claim C10 witness: a field reading camel, not blank, ingests as a
missing value while the row still succeeds. -/
theorem read_iso_ts_bad_value_witness :
    ∃ t, read_iso_ts [["Datetime", " a"], ["1 ", "  camel"], ["2 ", "  3.5"]] =
        .ok t ∧
      ∀ j, j + 1 < (["Datetime", " a"] : List String).length →
        t.cols.getD j [] =
          ([["1 ", "  camel"], ["2 ", "  3.5"]] : List (List String)).map
            (fun l => parseFloat (l.getD (j + 1) "")) :=
  read_iso_ts_bad_value _ _ (by decide) (by decide) (by decide) (by decide)
    (by decide) (by decide)

end TST
